import Mathlib

/-!
Verification of the time-interval accounting engine of `procesador/core.py`
(repository `Procesador`, v19): punch normalization, event mapping and the
worked/overtime deduction engine, embedded shallowly and checked against the
natural-language specification.

Conventions of the embedding:
* `datetime.time` values (minute resolution) are minutes-of-day, `Fin 1440`.
* Python `int` arithmetic on durations is `Int`; clamps (`max(0, ·)`) are
  explicit, exactly where the source has them.
* `datetime` values built from the reference day `2000-01-01` are positions
  in minutes since that day's midnight (`Int`).
* Python `Optional` is `Option`; truthiness of a `time` value is
  `isSome` (CPython ≥ 3.5: every `time` object is truthy).
-/

/-- A wall-clock time with minute resolution, as its minute-of-day. -/
abbrev Tod := Fin 1440

/-- `time(dt.hour, dt.minute)` for a datetime `n` minutes past a midnight:
the wall-clock result of datetime arithmetic, wrapping modulo one day. -/
def ofMin (n : Nat) : Tod := ⟨n % 1440, Nat.mod_lt n (by norm_num)⟩

/-- Same, for an `Int` number of minutes (Python floor-mod semantics). -/
def ofMinInt (n : Int) : Tod := ⟨(n % 1440).toNat, by omega⟩

/-- `time(h, m)` for concrete instances. -/
def hhmm (h m : Nat) : Tod := ofMin (h * 60 + m)

/-- The `AppConfig` fields read by the calculation core.  `cargar_config`
validates every numeric rule field to be a non-negative `int` (falling back
to `max(0, ·)`), so they are `Nat` here. -/
structure AppConfig where
  umbral_extra_min : Nat
  redondeo_extra_step_min : Nat
  redondeo_extra_modo : String
  tope_descuento_comida_min : Nat
  umbral_comida_media_hora_min : Nat
deriving DecidableEq

/-- The dataclass defaults of `AppConfig`. -/
def cfg0 : AppConfig :=
  { umbral_extra_min := 480
    redondeo_extra_step_min := 1
    redondeo_extra_modo := "none"
    tope_descuento_comida_min := 30
    umbral_comida_media_hora_min := 60 }

/-- `add_minutes`: shift a time by `minutes` on the reference day and keep
only the wall-clock part. -/
def add_minutes : Option Tod → Int → Option Tod
  | none, _ => none
  | some t, minutes => some (ofMinInt ((t.val : Int) + minutes))

/-- `round_minutes`: round `value_min` to a multiple of `step` (`up`,
`down` or nearest-with-ties-up).  Python `//` on the non-negative operands
used here coincides with `Int` division. -/
def round_minutes (value_min : Int) (step : Nat) (mode : String) : Int :=
  if step ≤ 1 then max 0 value_min
  else
    let v := max 0 value_min
    let s : Int := (step : Int)
    if mode = "up" then ((v + s - 1) / s) * s
    else if mode = "down" then (v / s) * s
    else
      let lo := (v / s) * s
      let hi := lo + s
      if v - lo ≥ hi - v then hi else lo

/-- `minutos_entre`: minutes from `t1` to `t2` on the reference day, adding
one day when `t2` falls numerically before `t1` (midnight crossing);
`0` when either argument is absent. -/
def minutos_entre : Option Tod → Option Tod → Int
  | some t1, some t2 =>
    if t2.val < t1.val then (t2.val : Int) + 1440 - (t1.val : Int)
    else (t2.val : Int) - (t1.val : Int)
  | _, _ => 0

/-- The sort key order used by `sorted(adjusted, key=lambda x: (x[0], x[1]))`
on `(adjusted minute, original index, time)` triples: lexicographic on the
first two components.  Python's `sorted` is a stable sort, and so is
`List.insertionSort`; two stable sorts of the same list under the same
total preorder agree, so the embedding computes exactly the Python list
(here the indices are even pairwise distinct, making the order total and
antisymmetric, with a unique sorted permutation). -/
def keyLE (a b : Nat × Nat × Tod) : Prop :=
  a.1 < b.1 ∨ (a.1 = b.1 ∧ a.2.1 ≤ b.2.1)

instance : DecidableRel keyLE := fun a b =>
  inferInstanceAs (Decidable (a.1 < b.1 ∨ (a.1 = b.1 ∧ a.2.1 ≤ b.2.1)))

instance : IsTotal (Nat × Nat × Tod) keyLE where
  total a b := by unfold keyLE; omega

instance : IsTrans (Nat × Nat × Tod) keyLE where
  trans a b c hab hbc := by unfold keyLE at *; omega

/-- The overnight-wrap heuristic of `normalize_registro_times`, on a punch
list `t0 :: rest`: a late first punch (`>= 18:00`) with some later smaller
minute-of-day, or some later smaller minute-of-day with a day span over 12
hours.  `max(mins)` and `min(mins)` are folded with the neutral elements
`0` and `1440`, which no minute-of-day exceeds resp. reaches. -/
def wrap_likely (t0 : Tod) (rest : List Tod) : Bool :=
  let mins := (t0 :: rest).map Fin.val
  let has_smaller := rest.any fun t => decide (t.val < t0.val)
  let span := mins.foldl max 0 - mins.foldl min 1440
  (decide (t0.val ≥ 18 * 60) && has_smaller) || (has_smaller && decide (span > 12 * 60))

/-- The adjusted minute of the source: `m + (1440 if wrap_likely and
m < entry_min else 0)`. -/
def aval (w : Bool) (entry t : Tod) : Nat :=
  t.val + (if w && decide (t.val < entry.val) then 1440 else 0)

/-- One entry of the `adjusted` list: `(adjusted minute, index, time)`. -/
def adjust (w : Bool) (entry : Tod) (p : Nat × Tod) : Nat × Nat × Tod :=
  (aval w entry p.2, p.1, p.2)

/-- `normalize_registro_times`: reorder punches chronologically, treating
punches before the first one as next-day when the overnight heuristic
fires. -/
def normalize_registro_times (times : List Tod) : List Tod × Bool :=
  match times with
  | [] => ([], false)
  | [t] => ([t], false)
  | t0 :: t1 :: rest =>
    let ts := t0 :: t1 :: rest
    let adjusted := ts.enum.map (adjust (wrap_likely t0 (t1 :: rest)) t0)
    let ordered := adjusted.insertionSort keyLE
    let out := ordered.map fun x => x.2.2
    (out, decide (out ≠ ts))

/-- The six named event slots plus the beyond-six overflow counter
(`_extra_registros`). -/
structure Eventos where
  entrada : Option Tod
  salida_comer : Option Tod
  regreso_comer : Option Tod
  salida_cenar : Option Tod
  regreso_cenar : Option Tod
  salida : Option Tod
  extra_registros : Int
deriving DecidableEq

/-- `map_eventos`: first punch is `Entrada`, last is `Salida`, the interior
punches fill the four break slots in order (`middle[:4]`). -/
def map_eventos : List Tod → Eventos
  | [] =>
    { entrada := none, salida_comer := none, regreso_comer := none
      salida_cenar := none, regreso_cenar := none, salida := none
      extra_registros := 0 }
  | [t] =>
    { entrada := some t, salida_comer := none, regreso_comer := none
      salida_cenar := none, regreso_cenar := none, salida := none
      extra_registros := 0 }
  | t0 :: t1 :: rest =>
    let middle := (t1 :: rest).dropLast
    let mids := middle.take 4
    { entrada := some t0
      salida_comer := mids[0]?
      regreso_comer := mids[1]?
      salida_cenar := mids[2]?
      regreso_cenar := mids[3]?
      salida := some ((t1 :: rest).getLast (by simp))
      extra_registros := max 0 ((t0 :: t1 :: rest).length - 6 : Int) }

/-- A manually captured no-labor exception `(inicio, fin, nota)`. -/
abbrev NoLabInterval := Option Tod × Option Tod × String

/-- `_to_shift_dt`: position of `t` on the shift timeline — times before
`Entrada` belong to the next day when the shift crosses midnight. -/
def toShiftDt (crosses : Bool) (ent : Tod) (t : Tod) : Int :=
  (t.val : Int) + (if crosses && decide (t.val < ent.val) then 1440 else 0)

/-- `_window`: the `[Entrada, Salida]` endpoints on the shift timeline. -/
def shiftWindow (crosses : Bool) (ent sal : Tod) : Int × Int :=
  let a := toShiftDt crosses ent ent
  let b := toShiftDt crosses ent sal
  if b < a then (a, b + 1440) else (a, b)

/-- `_overlap_min`: overlap in minutes of `(a1,a2)` and `(b1,b2)` on the
shift timeline.  (At every call site all four times are present, so the
`None` guard of the source is dropped.) -/
def overlap_min (crosses : Bool) (ent : Tod) (a1 a2 b1 b2 : Tod) : Int :=
  let A1 := toShiftDt crosses ent a1
  let A2 := toShiftDt crosses ent a2
  let A2 := if A2 < A1 then A2 + 1440 else A2
  let B1 := toShiftDt crosses ent b1
  let B2 := toShiftDt crosses ent b2
  let B2 := if B2 < B1 then B2 + 1440 else B2
  let s := max A1 B1
  let e := min A2 B2
  if e ≤ s then 0 else e - s

/-- `_clip_to_shift`: clip `(ini, fin)` to the shift window.  `none` when the
interval lies entirely outside; otherwise the clipped endpoints, as
wall-clock times, and the `max(0, ·)`-clamped minutes trimmed away. -/
def clip_to_shift (crosses : Bool) (ent sal : Tod) (ini fin : Tod) :
    Option (Tod × Tod × Int) :=
  let w := shiftWindow crosses ent sal
  let a0 := toShiftDt crosses ent ini
  let a1 := toShiftDt crosses ent fin
  let a1 := if a1 < a0 then a1 + 1440 else a1
  let i0 := max a0 w.1
  let i1 := min a1 w.2
  if i1 ≤ i0 then none
  else some (ofMinInt i0, ofMinInt i1, max 0 ((a1 - a0) - (i1 - i0)))

/-- The collection loop over `no_laborado_extra`: skip entries with no
start, default a missing end to `Salida`, clip to the shift window and sum
the ignored-outside-shift minutes.  (The dead second `continue` of the
source — `fin_eff is None` with `Salida` present — cannot fire.) -/
def collect_intervals (crosses : Bool) (ent sal : Tod) :
    List NoLabInterval → List (Tod × Tod) × Int
  | [] => ([], 0)
  | (none, _, _) :: rest => collect_intervals crosses ent sal rest
  | (some ini, fin?, _) :: rest =>
    let fin_eff := fin?.getD sal
    let r := collect_intervals crosses ent sal rest
    match clip_to_shift crosses ent sal ini fin_eff with
    | none => (r.1, minutos_entre (some ini) (some fin_eff) + r.2)
    | some (ic, fc, ign) => ((ic, fc) :: r.1, ign + r.2)

/-- The order used by `intervals.sort(key=lambda x: minutos_entre(ent, x[0]))`:
Python's sort is stable and so is `List.insertionSort`, and two stable
sorts under the same total preorder agree, so the embedding computes
exactly the Python list. -/
def intervalLE (ent : Tod) (a b : Tod × Tod) : Prop :=
  minutos_entre (some ent) (some a.1) ≤ minutos_entre (some ent) (some b.1)

instance (ent : Tod) : DecidableRel (intervalLE ent) := fun a b =>
  inferInstanceAs (Decidable (_ ≤ _))

instance (ent : Tod) : IsTotal (Tod × Tod) (intervalLE ent) where
  total a b := Int.le_total _ _

instance (ent : Tod) : IsTrans (Tod × Tod) (intervalLE ent) where
  trans _ _ _ hab hbc := Int.le_trans hab hbc

/-- One step of the merge loop.  The accumulator keeps `merged` reversed
(head = Python `merged[-1]`) together with `nolab_solape_interno`. -/
def merge_step (crosses : Bool) (ent : Tod)
    (acc : List (Tod × Tod) × Int) (cur : Tod × Tod) : List (Tod × Tod) × Int :=
  match acc.1 with
  | [] => ([cur], acc.2)
  | (last_ini, last_fin) :: prev =>
    let ov := overlap_min crosses ent last_ini last_fin cur.1 cur.2
    if 0 < ov ∨ last_fin = cur.1 then
      let lf := toShiftDt crosses ent last_fin
      let li := toShiftDt crosses ent last_ini
      let lf := if lf < li then lf + 1440 else lf
      let cf := toShiftDt crosses ent cur.2
      let ci := toShiftDt crosses ent cur.1
      let cf := if cf < ci then cf + 1440 else cf
      if lf < cf then ((last_ini, cur.2) :: prev, acc.2 + ov)
      else ((last_ini, last_fin) :: prev, acc.2 + ov)
    else (cur :: (last_ini, last_fin) :: prev, acc.2)

/-- The deduction loop over the merged intervals against the recorded
deduction windows: returns `(extra_ded, nolab_overlap_cd)`. -/
def deduct_merged (crosses : Bool) (ent : Tod) (ventanas : List (Tod × Tod)) :
    List (Tod × Tod) → Int × Int
  | [] => (0, 0)
  | (ini, fin) :: rest =>
    let dur := minutos_entre (some ini) (some fin)
    let ov := ventanas.foldl (fun a w => a + overlap_min crosses ent ini fin w.1 w.2) 0
    let r := deduct_merged crosses ent ventanas rest
    (max 0 (dur - ov) + r.1, ov + r.2)

/-- Source lines 139–154: the meal deduction and the recorded meal window.
With `Salida` present, the guard `sal_com and (reg_com or sal)` reduces to
`sal_com` being present, and `fin_real` is never `None`. -/
def comida_calc (cfg : AppConfig) (sal : Tod) (sal_com reg_com : Option Tod) :
    Int × Option Tod :=
  match sal_com with
  | none => (0, none)
  | some sc =>
    let fin_real := reg_com.getD sal
    let dur_real := minutos_entre (some sc) (some fin_real)
    if dur_real ≤ (cfg.umbral_comida_media_hora_min : Int) then
      let ded := min dur_real (cfg.tope_descuento_comida_min : Int)
      (ded, add_minutes (some sc) ded)
    else (dur_real, some fin_real)

/-- Source lines 156–163: the dinner deduction (always the full duration,
with a missing return replaced by `Salida`). -/
def cena_calc (sal : Tod) (sal_cen reg_cen : Option Tod) : Int :=
  match sal_cen, reg_cen with
  | some sc, some rc => minutos_entre (some sc) (some rc)
  | some sc, none => minutos_entre (some sc) (some sal)
  | none, _ => 0

/-- `ventanas_descuento`: the already-deducted windows, meal first then
dinner (`fin_cen = reg_cen or sal` is never `None` here). -/
def ventanas_descuento (sal : Tod) (sal_com comida_fin sal_cen reg_cen : Option Tod) :
    List (Tod × Tod) :=
  (match sal_com, comida_fin with
   | some sc, some cf => [(sc, cf)]
   | _, _ => []) ++
  (match sal_cen with
   | some sc => [(sc, reg_cen.getD sal)]
   | none => [])

/-- The 8-tuple returned by `calcular_trabajado`. -/
structure Resultado where
  trabajado : Int
  extra : Int
  comida_ded : Int
  cena_ded : Int
  extra_ded : Int
  nolab_overlap_cd : Int
  nolab_solape_interno : Int
  ignored_outside_shift : Int
deriving DecidableEq

/-- The all-zero result. -/
def cero : Resultado := ⟨0, 0, 0, 0, 0, 0, 0, 0⟩

/-- `calcular_trabajado`.  The guard `if no_laborado_extra:` of the source
is dropped: running the exception pipeline on an empty (or `None`) list
yields exactly the zeros the skipped block leaves behind. -/
def calcular_trabajado (eventos : Eventos) (cfg : AppConfig)
    (no_laborado_extra : List NoLabInterval) : Resultado :=
  match eventos.entrada, eventos.salida with
  | some ent, some sal =>
    let total := minutos_entre (some ent) (some sal)
    let com := comida_calc cfg sal eventos.salida_comer eventos.regreso_comer
    let cena_ded := cena_calc sal eventos.salida_cenar eventos.regreso_cenar
    let crosses := decide (sal.val < ent.val)
    let ventanas := ventanas_descuento sal eventos.salida_comer com.2
      eventos.salida_cenar eventos.regreso_cenar
    let nl := collect_intervals crosses ent sal no_laborado_extra
    let intervals := nl.1.insertionSort (intervalLE ent)
    let m := intervals.foldl (merge_step crosses ent) ([], 0)
    let ded := deduct_merged crosses ent ventanas m.1.reverse
    let trabajado := max 0 (total - com.1 - cena_ded - ded.1)
    let extra0 := max 0 (trabajado - (cfg.umbral_extra_min : Int))
    let extra :=
      if 1 < cfg.redondeo_extra_step_min ∧ cfg.redondeo_extra_modo ≠ "none" then
        round_minutes extra0 cfg.redondeo_extra_step_min cfg.redondeo_extra_modo
      else extra0
    { trabajado := trabajado, extra := extra, comida_ded := com.1
      cena_ded := cena_ded, extra_ded := ded.1, nolab_overlap_cd := ded.2
      nolab_solape_interno := m.2, ignored_outside_shift := nl.2 }
  | _, _ => cero

/-! ### Basic sign facts about the engine's arithmetic -/

theorem minutos_entre_nonneg : ∀ a b : Option Tod, 0 ≤ minutos_entre a b
  | none, none => le_refl 0
  | none, some _ => le_refl 0
  | some _, none => le_refl 0
  | some t1, some t2 => by
    have h1 := t1.isLt
    have h2 := t2.isLt
    simp only [minutos_entre]
    split <;> omega

theorem overlap_min_nonneg (c : Bool) (e a1 a2 b1 b2 : Tod) :
    0 ≤ overlap_min c e a1 a2 b1 b2 := by
  simp only [overlap_min]
  split <;> omega

theorem round_minutes_nonneg (v : Int) (step : Nat) (mode : String) :
    0 ≤ round_minutes v step mode := by
  simp only [round_minutes]
  split
  · exact le_max_left 0 v
  · split
    · have h0 : (0 : Int) ≤ max 0 v := le_max_left 0 v
      have hs : (0 : Int) < (step : Int) := by omega
      have : (0 : Int) ≤ (max 0 v + step - 1) / step := by
        apply Int.ediv_nonneg <;> omega
      exact Int.mul_nonneg this (by omega)
    · split
      · have : (0 : Int) ≤ max 0 v / step := by
          apply Int.ediv_nonneg
          · exact le_max_left 0 v
          · omega
        exact Int.mul_nonneg this (by omega)
      · have h0 : (0 : Int) ≤ max 0 v := le_max_left 0 v
        have hs : (0 : Int) < (step : Int) := by omega
        have hlo : (0 : Int) ≤ max 0 v / step * step :=
          Int.mul_nonneg (Int.ediv_nonneg h0 (by omega)) (by omega)
        split <;> omega

theorem clip_to_shift_ign_nonneg (c : Bool) (ent sal ini fin : Tod) {a b : Tod} {g : Int}
    (h : clip_to_shift c ent sal ini fin = some (a, b, g)) : 0 ≤ g := by
  simp only [clip_to_shift] at h
  split at h <;> split at h
  · exact absurd h (by simp)
  · simp only [Option.some.injEq, Prod.mk.injEq] at h
    rw [← h.2.2]
    exact le_max_left 0 _
  · exact absurd h (by simp)
  · simp only [Option.some.injEq, Prod.mk.injEq] at h
    rw [← h.2.2]
    exact le_max_left 0 _

theorem collect_intervals_ign_nonneg (c : Bool) (ent sal : Tod) :
    ∀ l : List NoLabInterval, 0 ≤ (collect_intervals c ent sal l).2
  | [] => le_refl 0
  | (none, _, _) :: rest => collect_intervals_ign_nonneg c ent sal rest
  | (some ini, fin?, _) :: rest => by
    have ih := collect_intervals_ign_nonneg c ent sal rest
    simp only [collect_intervals]
    cases hc : clip_to_shift c ent sal ini (fin?.getD sal) with
    | none =>
      simp only [hc]
      have := minutos_entre_nonneg (some ini) (some (fin?.getD sal))
      omega
    | some x =>
      obtain ⟨ic, fc, g⟩ := x
      simp only [hc]
      have := clip_to_shift_ign_nonneg c ent sal ini (fin?.getD sal) hc
      omega

theorem foldl_overlap_nonneg (c : Bool) (e i f : Tod) :
    ∀ (vs : List (Tod × Tod)) (acc : Int), 0 ≤ acc →
      0 ≤ vs.foldl (fun a w => a + overlap_min c e i f w.1 w.2) acc
  | [], acc, h => h
  | w :: vs, acc, h => by
    apply foldl_overlap_nonneg c e i f vs
    show 0 ≤ acc + overlap_min c e i f w.1 w.2
    have := overlap_min_nonneg c e i f w.1 w.2
    omega

theorem deduct_merged_nonneg (c : Bool) (e : Tod) (vs : List (Tod × Tod)) :
    ∀ l : List (Tod × Tod),
      0 ≤ (deduct_merged c e vs l).1 ∧ 0 ≤ (deduct_merged c e vs l).2
  | [] => ⟨le_refl 0, le_refl 0⟩
  | (ini, fin) :: rest => by
    have ih := deduct_merged_nonneg c e vs rest
    have hov := foldl_overlap_nonneg c e ini fin vs 0 (le_refl 0)
    simp only [deduct_merged]
    constructor
    · have : (0 : Int) ≤ max 0 (minutos_entre (some ini) (some fin) -
        vs.foldl (fun a w => a + overlap_min c e ini fin w.1 w.2) 0) := le_max_left 0 _
      omega
    · omega

theorem merge_step_solape_ge (c : Bool) (e : Tod) (acc : List (Tod × Tod) × Int)
    (cur : Tod × Tod) : acc.2 ≤ (merge_step c e acc cur).2 := by
  simp only [merge_step]
  split
  · exact le_refl _
  · rename_i li lf prev heq
    have := overlap_min_nonneg c e li lf cur.1 cur.2
    split
    · have h2 : ∀ (p : Prop) [Decidable p] (x y : List (Tod × Tod)) (v : Int),
          (if p then (x, v) else (y, v)).2 = v := by
        intro p _ x y v
        split <;> rfl
      rw [h2]
      omega
    · exact le_refl _

theorem merge_foldl_solape_nonneg (c : Bool) (e : Tod) :
    ∀ (l : List (Tod × Tod)) (acc : List (Tod × Tod) × Int), 0 ≤ acc.2 →
      0 ≤ (l.foldl (merge_step c e) acc).2
  | [], _, h => h
  | cur :: l, acc, h => by
    apply merge_foldl_solape_nonneg c e l
    exact le_trans h (merge_step_solape_ge c e acc cur)

theorem comida_calc_nonneg (cfg : AppConfig) (sal : Tod) (a b : Option Tod) :
    0 ≤ (comida_calc cfg sal a b).1 := by
  match a with
  | none => exact le_refl 0
  | some sc =>
    simp only [comida_calc]
    have := minutos_entre_nonneg (some sc) (some (b.getD sal))
    split
    · simp only []
      omega
    · exact this

theorem cena_calc_nonneg (sal : Tod) (a b : Option Tod) : 0 ≤ cena_calc sal a b := by
  match a, b with
  | some sc, some rc => exact minutos_entre_nonneg (some sc) (some rc)
  | some sc, none => exact minutos_entre_nonneg (some sc) (some sal)
  | none, _ => exact le_refl 0

/-- Claim C8: for every events map, configuration and exception list, every
component of the result of `calcular_trabajado` is non-negative: worked,
overtime, the meal, dinner and no-labor deductions, and the three
diagnostic counters. -/
theorem claim8_result_nonneg (ev : Eventos) (cfg : AppConfig) (exc : List NoLabInterval) :
    0 ≤ (calcular_trabajado ev cfg exc).trabajado ∧
    0 ≤ (calcular_trabajado ev cfg exc).extra ∧
    0 ≤ (calcular_trabajado ev cfg exc).comida_ded ∧
    0 ≤ (calcular_trabajado ev cfg exc).cena_ded ∧
    0 ≤ (calcular_trabajado ev cfg exc).extra_ded ∧
    0 ≤ (calcular_trabajado ev cfg exc).nolab_overlap_cd ∧
    0 ≤ (calcular_trabajado ev cfg exc).nolab_solape_interno ∧
    0 ≤ (calcular_trabajado ev cfg exc).ignored_outside_shift := by
  obtain ⟨e1, e2, e3, e4, e5, e6, e7⟩ := ev
  match e1, e6 with
  | none, none => exact ⟨le_refl 0, le_refl 0, le_refl 0, le_refl 0, le_refl 0,
      le_refl 0, le_refl 0, le_refl 0⟩
  | none, some _ => exact ⟨le_refl 0, le_refl 0, le_refl 0, le_refl 0, le_refl 0,
      le_refl 0, le_refl 0, le_refl 0⟩
  | some _, none => exact ⟨le_refl 0, le_refl 0, le_refl 0, le_refl 0, le_refl 0,
      le_refl 0, le_refl 0, le_refl 0⟩
  | some ent, some sal =>
    simp only [calcular_trabajado]
    refine ⟨le_max_left 0 _, ?_, comida_calc_nonneg cfg sal e2 e3,
      cena_calc_nonneg sal e4 e5, (deduct_merged_nonneg _ _ _ _).1,
      (deduct_merged_nonneg _ _ _ _).2,
      merge_foldl_solape_nonneg _ _ _ _ (le_refl 0),
      collect_intervals_ign_nonneg _ _ _ _⟩
    split
    · exact round_minutes_nonneg _ _ _
    · exact le_max_left 0 _

/-! ### Claim C7 — spec Scenario B -/

/-- Claim C7 counterexample: on punches 09:00, 12:00, 13:10, 17:00 under the
default configuration the span 09:00–17:00 is 480 minutes, not the 540 the
spec's arithmetic assumed, so the engine returns worked 410, not 470. -/
theorem claim7_counterexample :
    (calcular_trabajado (map_eventos [hhmm 9 0, hhmm 12 0, hhmm 13 10, hhmm 17 0])
      cfg0 []).trabajado = 410 ∧ (410 : Int) ≠ 470 := by
  constructor
  · decide
  · decide

/-- Claim C7 (amended): on punches 09:00, 12:00, 13:10, 17:00 under the
default configuration the meal actual is 70 minutes, which exceeds the
60-minute ceiling, so the full 70 minutes are deducted from the 480-minute
span and the result is worked 410 with overtime 0. -/
theorem claim7_amended :
    (map_eventos [hhmm 9 0, hhmm 12 0, hhmm 13 10, hhmm 17 0]).salida_comer =
      some (hhmm 12 0) ∧
    (map_eventos [hhmm 9 0, hhmm 12 0, hhmm 13 10, hhmm 17 0]).regreso_comer =
      some (hhmm 13 10) ∧
    minutos_entre (some (hhmm 12 0)) (some (hhmm 13 10)) = 70 ∧
    ¬(70 : Int) ≤ (cfg0.umbral_comida_media_hora_min : Int) ∧
    (calcular_trabajado (map_eventos [hhmm 9 0, hhmm 12 0, hhmm 13 10, hhmm 17 0])
      cfg0 []).comida_ded = 70 ∧
    (calcular_trabajado (map_eventos [hhmm 9 0, hhmm 12 0, hhmm 13 10, hhmm 17 0])
      cfg0 []).trabajado = 410 ∧
    (calcular_trabajado (map_eventos [hhmm 9 0, hhmm 12 0, hhmm 13 10, hhmm 17 0])
      cfg0 []).extra = 0 := by
  refine ⟨by decide, by decide, by decide, by decide, by decide, by decide, by decide⟩

/-! ### Claim C6 — overtime bound -/

theorem round_minutes_down_le (v : Int) (step : Nat) (hv : 0 ≤ v) :
    round_minutes v step "down" ≤ v := by
  simp only [round_minutes]
  split
  · omega
  · rw [if_neg (show ¬("down" = "up") by decide), if_pos trivial]
    have hs : ((step : Int)) ≠ 0 := by omega
    have := Int.ediv_mul_le (max 0 v) hs
    omega

/-- A configuration with a rounding step far larger than the overtime it
rounds: step 1000, mode `up`. -/
def cfgC6 : AppConfig :=
  { umbral_extra_min := 480
    redondeo_extra_step_min := 1000
    redondeo_extra_modo := "up"
    tope_descuento_comida_min := 30
    umbral_comida_media_hora_min := 60 }

/-- Claim C6 counterexample: a 09:00–17:01 day has worked 481 and raw
overtime 1, which mode `up` with step 1000 rounds to 1000 > 481, so
overtime ≤ worked fails for this configuration. -/
theorem claim6_counterexample :
    ¬((calcular_trabajado (map_eventos [hhmm 9 0, hhmm 17 1]) cfgC6 []).extra ≤
      (calcular_trabajado (map_eventos [hhmm 9 0, hhmm 17 1]) cfgC6 []).trabajado) := by
  decide

/-- Claim C6 (amended): overtime ≤ worked for every events map, exception
list, and every configuration whose rounding leaves overtime unrounded
(step ≤ 1 or mode `none`) or rounds it down (mode `down`); rounding modes
`up` and `nearest` with a large step can push overtime past worked. -/
theorem claim6_amended (ev : Eventos) (cfg : AppConfig) (exc : List NoLabInterval)
    (h : cfg.redondeo_extra_step_min ≤ 1 ∨ cfg.redondeo_extra_modo = "none" ∨
      cfg.redondeo_extra_modo = "down") :
    (calcular_trabajado ev cfg exc).extra ≤ (calcular_trabajado ev cfg exc).trabajado := by
  obtain ⟨e1, e2, e3, e4, e5, e6, e7⟩ := ev
  match e1, e6 with
  | none, none => exact le_refl 0
  | none, some _ => exact le_refl 0
  | some _, none => exact le_refl 0
  | some ent, some sal =>
    simp only [calcular_trabajado]
    split
    · rename_i hg
      have hmodo : cfg.redondeo_extra_modo = "down" := by
        rcases h with h' | h' | h'
        · omega
        · exact absurd h' hg.2
        · exact h'
      rw [hmodo]
      have h1 := round_minutes_down_le
        (max 0 (max 0 (minutos_entre (some ent) (some sal) -
            (comida_calc cfg sal e2 e3).1 - cena_calc sal e4 e5 -
            (deduct_merged (decide (sal.val < ent.val)) ent
              (ventanas_descuento sal e2 (comida_calc cfg sal e2 e3).2 e4 e5)
              ((List.foldl (merge_step (decide (sal.val < ent.val)) ent) ([], 0)
                ((collect_intervals (decide (sal.val < ent.val)) ent sal
                  exc).1.insertionSort (intervalLE ent))).1.reverse)).1) -
          (cfg.umbral_extra_min : Int)))
        cfg.redondeo_extra_step_min (le_max_left 0 _)
      omega
    · omega

/-- A concrete full day for witnesses: punches 09:00, 13:00, 13:30, 18:00. -/
def evA : Eventos := map_eventos [hhmm 9 0, hhmm 13 0, hhmm 13 30, hhmm 18 0]

/-- Claim C6 witness: the amended bound at a concrete input (default
configuration, no rounding). -/
theorem claim6_witness :
    (calcular_trabajado evA cfg0 []).extra ≤ (calcular_trabajado evA cfg0 []).trabajado :=
  claim6_amended evA cfg0 [] (Or.inl (by decide))

/-! ### Claim C10 — normalization is a permutation -/

theorem normalize_perm : ∀ ts : List Tod, (normalize_registro_times ts).1.Perm ts
  | [] => List.Perm.refl _
  | [t] => List.Perm.refl _
  | t0 :: t1 :: rest => by
    show ((((t0 :: t1 :: rest).enum.map
        (adjust (wrap_likely t0 (t1 :: rest)) t0)).insertionSort keyLE).map
        fun x => x.2.2).Perm _
    have h1 := (List.perm_insertionSort keyLE
      ((t0 :: t1 :: rest).enum.map (adjust (wrap_likely t0 (t1 :: rest)) t0))).map
      (fun x : Nat × Nat × Tod => x.2.2)
    have h2 : (((t0 :: t1 :: rest).enum.map
        (adjust (wrap_likely t0 (t1 :: rest)) t0)).map
        fun x : Nat × Nat × Tod => x.2.2) = t0 :: t1 :: rest := by
      rw [List.map_map]
      have hcomp : ((fun x : Nat × Nat × Tod => x.2.2) ∘
          adjust (wrap_likely t0 (t1 :: rest)) t0) = Prod.snd := rfl
      rw [hcomp, List.enum_map_snd]
    rw [h2] at h1
    exact h1

/-- Claim C10: the list returned by `normalize_registro_times` is a
permutation of the input — same length, same multiset of time values; no
punch is dropped, duplicated, or altered (in particular the `+1440`
ordering adjustment never reaches the output values). -/
theorem claim10_normalize_permutation (ts : List Tod) :
    (normalize_registro_times ts).1.Perm ts ∧
    (normalize_registro_times ts).1.length = ts.length :=
  ⟨normalize_perm ts, (normalize_perm ts).length_eq⟩

/-! ### Claim C2 — meal deduction rule -/

/-- The meal deduction exactly as the claim words it: `0` with `MealOut`
absent; otherwise `min(actual, cap)` when `actual <= ceiling` and the full
`actual` beyond the ceiling, where `actual` runs from `MealOut` to `MealIn`
when present and to `Exit` otherwise. -/
def mealDedSpec (cfg : AppConfig) (sal : Tod) (mo rc : Option Tod) : Int :=
  match mo with
  | none => 0
  | some mo =>
    let actual := minutos_entre (some mo) (some (rc.getD sal))
    if actual ≤ (cfg.umbral_comida_media_hora_min : Int) then
      min actual (cfg.tope_descuento_comida_min : Int)
    else actual

/-- The recorded meal-deduction window as the claim words it: it starts at
`MealOut`; it ends at `MealOut` plus the deducted minutes in the capped
case, and at the effective meal end in the full-deduction case. -/
def mealVentanaSpec (cfg : AppConfig) (sal : Tod) (mo rc : Option Tod) :
    Option (Tod × Tod) :=
  match mo with
  | none => none
  | some mo =>
    let actual := minutos_entre (some mo) (some (rc.getD sal))
    if actual ≤ (cfg.umbral_comida_media_hora_min : Int) then
      some (mo, ofMinInt ((mo.val : Int) +
        min actual (cfg.tope_descuento_comida_min : Int)))
    else some (mo, rc.getD sal)

/-- Claim C2: for every events map with Entry and Exit present, the meal
deduction returned by `calcular_trabajado` is `0` when `MealOut` is absent
and otherwise follows the `min(actual, cap)` / full-`actual` threshold rule
on the effective meal end (`MealIn` or else `Exit`), and the meal part of
the recorded deduction windows is the window the claim describes. -/
theorem claim2_meal_rule (ev : Eventos) (cfg : AppConfig) (exc : List NoLabInterval)
    (ent sal : Tod) (he : ev.entrada = some ent) (hs : ev.salida = some sal) :
    (calcular_trabajado ev cfg exc).comida_ded =
      mealDedSpec cfg sal ev.salida_comer ev.regreso_comer ∧
    ventanas_descuento sal ev.salida_comer
        (comida_calc cfg sal ev.salida_comer ev.regreso_comer).2 none none =
      (mealVentanaSpec cfg sal ev.salida_comer ev.regreso_comer).toList := by
  obtain ⟨e1, e2, e3, e4, e5, e6, e7⟩ := ev
  dsimp only at he hs
  subst he
  subst hs
  constructor
  · show (comida_calc cfg sal e2 e3).1 = mealDedSpec cfg sal e2 e3
    cases e2 with
    | none => rfl
    | some sc =>
      simp only [comida_calc, mealDedSpec]
      split <;> rfl
  · cases e2 with
    | none => rfl
    | some sc =>
      simp only [comida_calc, mealVentanaSpec, add_minutes]
      by_cases hcase : minutos_entre (some sc) (some (e3.getD sal)) ≤
        (cfg.umbral_comida_media_hora_min : Int)
      · rw [if_pos hcase, if_pos hcase]
        rfl
      · rw [if_neg hcase, if_neg hcase]
        rfl

/-- Claim C2 witness: the rule at Scenario A's events (meal 13:00–13:30,
default configuration). -/
theorem claim2_witness :
    (calcular_trabajado evA cfg0 []).comida_ded =
      mealDedSpec cfg0 (hhmm 18 0) evA.salida_comer evA.regreso_comer ∧
    ventanas_descuento (hhmm 18 0) evA.salida_comer
        (comida_calc cfg0 (hhmm 18 0) evA.salida_comer evA.regreso_comer).2 none none =
      (mealVentanaSpec cfg0 (hhmm 18 0) evA.salida_comer evA.regreso_comer).toList :=
  claim2_meal_rule evA cfg0 [] (hhmm 9 0) (hhmm 18 0) (by decide) (by decide)

/-! ### Claim C3 — zero fast path, skipped and substituted exceptions -/

theorem collect_intervals_skip (c : Bool) (ent sal : Tod) (fin? : Option Tod) (nota : String) :
    ∀ xs ys : List NoLabInterval,
      collect_intervals c ent sal (xs ++ (none, fin?, nota) :: ys) =
        collect_intervals c ent sal (xs ++ ys)
  | [], _ => rfl
  | (none, f, n) :: xs, ys => collect_intervals_skip c ent sal fin? nota xs ys
  | (some i, f, n) :: xs, ys => by
    simp only [List.cons_append, collect_intervals, List.append_eq,
      collect_intervals_skip c ent sal fin? nota xs ys]

theorem collect_intervals_subst (c : Bool) (ent sal : Tod) (a : Tod) (nota : String) :
    ∀ xs ys : List NoLabInterval,
      collect_intervals c ent sal (xs ++ (some a, none, nota) :: ys) =
        collect_intervals c ent sal (xs ++ (some a, some sal, nota) :: ys)
  | [], _ => rfl
  | (none, f, n) :: xs, ys => collect_intervals_subst c ent sal a nota xs ys
  | (some i, f, n) :: xs, ys => by
    simp only [List.cons_append, collect_intervals, List.append_eq,
      collect_intervals_subst c ent sal a nota xs ys]

/-- `calcular_trabajado` reads the exception list only through
`collect_intervals` over its own shift parameters. -/
theorem calcular_trabajado_exc_congr (ev : Eventos) (cfg : AppConfig)
    {xs ys : List NoLabInterval}
    (h : ∀ (c : Bool) (ent sal : Tod), ev.entrada = some ent → ev.salida = some sal →
      collect_intervals c ent sal xs = collect_intervals c ent sal ys) :
    calcular_trabajado ev cfg xs = calcular_trabajado ev cfg ys := by
  obtain ⟨e1, e2, e3, e4, e5, e6, e7⟩ := ev
  match e1, e6 with
  | none, none => rfl
  | none, some _ => rfl
  | some _, none => rfl
  | some ent, some sal =>
    have hc := h (decide (sal.val < ent.val)) ent sal rfl rfl
    simp only [calcular_trabajado, hc]

/-- Claim C3 counterexample: with Entry = Exit = 09:00 both present and no
breaks, `calcular_trabajado` returns the all-zero result, so the all-zero
result is not exclusive to the missing-Entry-or-Exit case. -/
def evEq : Eventos :=
  { entrada := some (hhmm 9 0), salida_comer := none, regreso_comer := none
    salida_cenar := none, regreso_cenar := none, salida := some (hhmm 9 0)
    extra_registros := 0 }

theorem claim3_counterexample :
    calcular_trabajado evEq cfg0 [] = cero ∧
    evEq.entrada ≠ none ∧ evEq.salida ≠ none := by
  refine ⟨by decide, by decide, by decide⟩

/-- Claim C3 (amended): `calcular_trabajado` returns the all-zero result
whenever Entry or Exit is absent; an exception whose start is absent is
skipped wherever it sits in the list; an exception whose end is absent
behaves exactly as if its end were Exit.  (The converse of the first part
fails: the all-zero result can also arise with Entry and Exit present,
e.g. Entry = Exit.) -/
theorem claim3_amended :
    (∀ (ev : Eventos) (cfg : AppConfig) (exc : List NoLabInterval),
      ev.entrada = none ∨ ev.salida = none → calcular_trabajado ev cfg exc = cero) ∧
    (∀ (ev : Eventos) (cfg : AppConfig) (xs ys : List NoLabInterval)
        (fin? : Option Tod) (nota : String),
      calcular_trabajado ev cfg (xs ++ (none, fin?, nota) :: ys) =
        calcular_trabajado ev cfg (xs ++ ys)) ∧
    (∀ (ev : Eventos) (cfg : AppConfig) (xs ys : List NoLabInterval)
        (a : Tod) (nota : String) (sal : Tod), ev.salida = some sal →
      calcular_trabajado ev cfg (xs ++ (some a, none, nota) :: ys) =
        calcular_trabajado ev cfg (xs ++ (some a, some sal, nota) :: ys)) := by
  refine ⟨?_, ?_, ?_⟩
  · intro ev cfg exc h
    obtain ⟨e1, e2, e3, e4, e5, e6, e7⟩ := ev
    match e1, e6 with
    | none, none => rfl
    | none, some _ => rfl
    | some _, none => rfl
    | some _, some _ =>
      exfalso
      rcases h with h | h <;> exact Option.noConfusion h
  · intro ev cfg xs ys fin? nota
    exact calcular_trabajado_exc_congr ev cfg fun c ent sal _ _ =>
      collect_intervals_skip c ent sal fin? nota xs ys
  · intro ev cfg xs ys a nota sal hsal
    refine calcular_trabajado_exc_congr ev cfg fun c ent sal' _ hs' => ?_
    have : sal' = sal := by
      rw [hsal] at hs'
      exact (Option.some.injEq _ _ ▸ hs').symm
    rw [this]
    exact collect_intervals_subst c ent sal a nota xs ys

/-- Claim C3 witness: the amended statement at concrete inputs — a record
with no Entry yields the zero result; a start-less exception is dropped; an
end-less exception equals the Exit-substituted one. -/
theorem claim3_witness :
    calcular_trabajado
      { entrada := none, salida_comer := none, regreso_comer := none
        salida_cenar := none, regreso_cenar := none, salida := some (hhmm 18 0)
        extra_registros := 0 } cfg0 [] = cero ∧
    calcular_trabajado evA cfg0 ([] ++ (none, some (hhmm 11 0), "x") :: []) =
      calcular_trabajado evA cfg0 ([] ++ []) ∧
    calcular_trabajado evA cfg0 ([] ++ (some (hhmm 11 0), none, "x") :: []) =
      calcular_trabajado evA cfg0 ([] ++ (some (hhmm 11 0), some (hhmm 18 0), "x") :: []) :=
  ⟨claim3_amended.1 _ cfg0 [] (Or.inl rfl),
   claim3_amended.2.1 evA cfg0 [] [] (some (hhmm 11 0)) "x",
   claim3_amended.2.2 evA cfg0 [] [] (hhmm 11 0) "x" (hhmm 18 0) (by decide)⟩

/-! ### Claim C4 — the normalization algorithm as the claim words it -/

theorem max?_elim_foldl (v : Nat) : ∀ vs : List Nat, vs.max?.elim v (max v) = vs.foldl max v
  | [] => rfl
  | x :: vs => by
    rw [List.max?_cons]
    simp only [Option.elim_some, List.foldl_cons]
    rw [← max?_elim_foldl (max v x) vs]
    cases h : vs.max? <;> simp [Nat.max_assoc]

theorem min?_elim_foldl (v : Nat) : ∀ vs : List Nat, vs.min?.elim v (min v) = vs.foldl min v
  | [] => rfl
  | x :: vs => by
    rw [List.min?_cons]
    simp only [Option.elim_some, List.foldl_cons]
    rw [← min?_elim_foldl (min v x) vs]
    cases h : vs.min? <;> simp [Nat.min_assoc]

theorem foldl_max_eq (v : Nat) (vs : List Nat) :
    (v :: vs).foldl max 0 = ((v :: vs).max?).getD 0 := by
  rw [List.max?_cons]
  simp only [Option.getD_some, List.foldl_cons, Nat.zero_max]
  exact (max?_elim_foldl v vs).symm

theorem foldl_min_eq (v : Nat) (hv : v < 1440) (vs : List Nat) :
    (v :: vs).foldl min 1440 = ((v :: vs).min?).getD 0 := by
  rw [List.min?_cons]
  simp only [Option.getD_some, List.foldl_cons]
  rw [show min 1440 v = v by omega]
  exact (min?_elim_foldl v vs).symm

/-- The day span of the claim: maximum minus minimum minute-of-day. -/
def spanSpec (ts : List Tod) : Nat :=
  ((ts.map Fin.val).max?.getD 0) - ((ts.map Fin.val).min?.getD 0)

/-- The claim's wrap condition: the first punch's minute-of-day is `>= 1080`
and some later punch has a strictly smaller minute-of-day, or some later
punch has a strictly smaller minute-of-day and the span exceeds `720`. -/
def wrapLikelySpec (ts : List Tod) (entry : Tod) : Bool :=
  let laterSmaller := ts.tail.any fun t => decide (t.val < entry.val)
  (decide (1080 ≤ entry.val) && laterSmaller) ||
    (laterSmaller && decide (720 < spanSpec ts))

/-- The claim's ordering key: 1440 minutes added, for ordering purposes
only, to a punch whose minute-of-day is strictly below the first punch's,
when the wrap condition holds. -/
def adjustedMinute (w : Bool) (entry t : Tod) : Nat :=
  if w ∧ t.val < entry.val then t.val + 1440 else t.val

/-- The claim's sort order on `(time, original index)` pairs:
lexicographic on `(adjusted minute, original index)`. -/
def specPairLE (w : Bool) (entry : Tod) (a b : Tod × Nat) : Prop :=
  adjustedMinute w entry a.1 < adjustedMinute w entry b.1 ∨
    (adjustedMinute w entry a.1 = adjustedMinute w entry b.1 ∧ a.2 ≤ b.2)

instance (w : Bool) (entry : Tod) : DecidableRel (specPairLE w entry) := fun a b =>
  inferInstanceAs (Decidable (_ ∨ _))

/-- Claim C4's description of normalization, assembled: fewer than 2
punches come back unchanged with `reordered = false`; otherwise the
original time values are stably sorted by `(adjusted minute, original
index)` — the `+1440` adjustment never baked into output values — and
`reordered` is true exactly when the output differs from the input. -/
def normalizeSpec : List Tod → List Tod × Bool
  | [] => ([], false)
  | [t] => ([t], false)
  | t0 :: t1 :: rest =>
    let ts := t0 :: t1 :: rest
    let w := wrapLikelySpec ts t0
    let sorted := (ts.enum.map Prod.swap).insertionSort (specPairLE w t0)
    let out := sorted.map Prod.fst
    (out, decide (out ≠ ts))

theorem adjustedMinute_eq (w : Bool) (e t : Tod) :
    adjustedMinute w e t = t.val + (if w && decide (t.val < e.val) then 1440 else 0) := by
  cases w <;> by_cases hp : t.val < e.val <;> simp [adjustedMinute, hp]

theorem aval_eq_adjustedMinute (w : Bool) (e t : Tod) :
    aval w e t = adjustedMinute w e t := (adjustedMinute_eq w e t).symm

theorem wrap_likely_eq_spec (t0 t1 : Tod) (rest : List Tod) :
    wrap_likely t0 (t1 :: rest) = wrapLikelySpec (t0 :: t1 :: rest) t0 := by
  have hmax := foldl_max_eq t0.val (t1.val :: rest.map Fin.val)
  have hmin := foldl_min_eq t0.val t0.isLt (t1.val :: rest.map Fin.val)
  simp only [wrap_likely, wrapLikelySpec, spanSpec, List.tail_cons, List.map_cons]
  have h2 : decide ((t0.val :: t1.val :: rest.map Fin.val).foldl max 0 -
        (t0.val :: t1.val :: rest.map Fin.val).foldl min 1440 > 12 * 60) =
      decide (720 < ((t0.val :: t1.val :: rest.map Fin.val).max?).getD 0 -
        ((t0.val :: t1.val :: rest.map Fin.val).min?).getD 0) := by
    rw [decide_eq_decide]
    rw [hmax, hmin]
  rw [h2]

theorem claim4_normalize_algorithm_aux (t0 t1 : Tod) (rest : List Tod) :
    normalize_registro_times (t0 :: t1 :: rest) = normalizeSpec (t0 :: t1 :: rest) := by
  have hw : wrap_likely t0 (t1 :: rest) = wrapLikelySpec (t0 :: t1 :: rest) t0 :=
    wrap_likely_eq_spec t0 t1 rest
  show
    ((((t0 :: t1 :: rest).enum.map (adjust (wrap_likely t0 (t1 :: rest)) t0)).insertionSort
        keyLE).map fun x => x.2.2,
      decide ((((t0 :: t1 :: rest).enum.map
        (adjust (wrap_likely t0 (t1 :: rest)) t0)).insertionSort keyLE).map
          (fun x => x.2.2) ≠ t0 :: t1 :: rest)) = _
  rw [hw]
  set w := wrapLikelySpec (t0 :: t1 :: rest) t0 with hwdef
  have hsort :
      (((t0 :: t1 :: rest).enum.map Prod.swap).insertionSort (specPairLE w t0)).map
          (fun p : Tod × Nat => adjust w t0 p.swap) =
        (((t0 :: t1 :: rest).enum.map Prod.swap).map
          (fun p : Tod × Nat => adjust w t0 p.swap)).insertionSort keyLE := by
    apply List.map_insertionSort
    intro a _ b _
    simp only [keyLE, adjust, aval, specPairLE, adjustedMinute_eq, Prod.swap]
  have hmaps :
      (((t0 :: t1 :: rest).enum.map Prod.swap).map
          (fun p : Tod × Nat => adjust w t0 p.swap)) =
        (t0 :: t1 :: rest).enum.map (adjust w t0) := by
    rw [List.map_map]
    rfl
  rw [hmaps] at hsort
  have hout :
      (((t0 :: t1 :: rest).enum.map (adjust w t0)).insertionSort keyLE).map
          (fun x : Nat × Nat × Tod => x.2.2) =
        ((((t0 :: t1 :: rest).enum.map Prod.swap).insertionSort
          (specPairLE w t0)).map Prod.fst) := by
    rw [← hsort, List.map_map]
    rfl
  show (_, _) = (_, _)
  rw [hout]

/-- Claim C4: for every punch list, `normalize_registro_times` computes
exactly the claim's description — the wrap condition `(entry >= 1080 and a
later smaller punch) or (a later smaller punch and max - min > 720)`, the
`+1440` ordering-only adjustment for punches below the first one, the
stable sort by `(adjusted minute, original index)` of the original values,
the `reordered` flag true iff the output differs, and lists of fewer than 2
punches returned unchanged with `reordered = false`. -/
theorem claim4_normalize_algorithm :
    ∀ ts : List Tod, normalize_registro_times ts = normalizeSpec ts
  | [] => rfl
  | [_] => rfl
  | t0 :: t1 :: rest => claim4_normalize_algorithm_aux t0 t1 rest

/-! ### Claim C9 — idempotence of normalization -/

theorem aval_false (e t : Tod) : aval false e t = t.val := by
  simp [aval]

theorem aval_self (w : Bool) (e : Tod) : aval w e e = e.val := by
  simp [aval]

theorem aval_true_ge (e t : Tod) : e.val ≤ aval true e t := by
  have h1 := e.isLt
  have h2 := t.isLt
  by_cases hp : t.val < e.val <;> simp [aval, hp] <;> omega

theorem mem_adjusted_shape {w : Bool} {e : Tod} {l : List Tod} {x : Nat × Nat × Tod}
    (hx : x ∈ l.enum.map (adjust w e)) : x.1 = aval w e x.2.2 := by
  obtain ⟨p, -, rfl⟩ := List.mem_map.mp hx
  rfl

theorem snd_mem_of_mem_enumFrom {l : List Tod} {n i : Nat} {t : Tod}
    (h : (i, t) ∈ l.enumFrom n) : t ∈ l := by
  obtain ⟨-, hlt, heq⟩ := List.mem_enumFrom h
  rw [heq]
  exact List.getElem_mem _

theorem idx_zero_of_mem_enum {l : List Tod} {t0 : Tod} {i : Nat} {t : Tod}
    (h : (i, t) ∈ (t0 :: l).enum) : (i = 0 ∧ t = t0) ∨ 1 ≤ i := by
  rw [List.enum_cons] at h
  rcases List.mem_cons.mp h with heq | hmem
  · left
    have h1 : i = 0 := congrArg Prod.fst heq
    have h2 : t = t0 := congrArg Prod.snd heq
    exact ⟨h1, h2⟩
  · right
    exact (List.mem_enumFrom hmem).1

theorem pairwise_keyLE_enumFrom (w : Bool) (e : Tod) :
    ∀ (n : Nat) (l : List Tod),
      l.Pairwise (fun x y : Tod => aval w e x ≤ aval w e y) →
      ((l.enumFrom n).map (adjust w e)).Pairwise keyLE
  | _, [], _ => List.Pairwise.nil
  | n, x :: l, hp => by
    rw [List.enumFrom_cons, List.map_cons]
    refine List.Pairwise.cons ?_
      (pairwise_keyLE_enumFrom w e (n + 1) l (List.pairwise_cons.mp hp).2)
    intro b hb
    obtain ⟨⟨j, y⟩, hjy, rfl⟩ := List.mem_map.mp hb
    have hj : n + 1 ≤ j := (List.mem_enumFrom hjy).1
    have hy : y ∈ l := snd_mem_of_mem_enumFrom hjy
    have hxy : aval w e x ≤ aval w e y := (List.pairwise_cons.mp hp).1 y hy
    show aval w e x < aval w e y ∨ (aval w e x = aval w e y ∧ n ≤ j)
    omega

theorem sorted_head_min {h : Nat × Nat × Tod} {tl : List (Nat × Nat × Tod)}
    {m : Nat × Nat × Tod}
    (hs : (h :: tl).Pairwise keyLE) (hm : m ∈ h :: tl)
    (hlt : ∀ x ∈ h :: tl, x ≠ m → m.1 < x.1 ∨ (m.1 = x.1 ∧ m.2.1 < x.2.1)) :
    h = m := by
  rcases List.mem_cons.mp hm with heq | hm'
  · exact heq.symm
  · by_cases hhm : h = m
    · exact hhm
    · have hk : keyLE h m := (List.pairwise_cons.mp hs).1 m hm'
      have hlt' := hlt h (List.mem_cons_self _ _) hhm
      unfold keyLE at hk
      exfalso
      rcases hk with hk | ⟨hk1, hk2⟩ <;> rcases hlt' with hl | ⟨hl1, hl2⟩ <;> omega

theorem wrap_likely_eq (t0 : Tod) (rest : List Tod) :
    wrap_likely t0 rest =
      ((decide (t0.val ≥ 18 * 60) && rest.any fun t => decide (t.val < t0.val)) ||
       ((rest.any fun t => decide (t.val < t0.val)) &&
        decide (((t0 :: rest).map Fin.val).foldl max 0 -
          ((t0 :: rest).map Fin.val).foldl min 1440 > 12 * 60))) := rfl

theorem wrap_likely_hs {t0 : Tod} {rest : List Tod} (h : wrap_likely t0 rest = true) :
    rest.any (fun t => decide (t.val < t0.val)) = true := by
  cases hx : rest.any (fun t => decide (t.val < t0.val)) with
  | true => rfl
  | false =>
    rw [wrap_likely_eq, hx] at h
    simp at h

theorem normalize_cons_eq (a b : Tod) (l : List Tod) :
    normalize_registro_times (a :: b :: l) =
      (((((a :: b :: l).enum.map (adjust (wrap_likely a (b :: l)) a)).insertionSort
        keyLE).map fun x => x.2.2),
       decide (((((a :: b :: l).enum.map (adjust (wrap_likely a (b :: l))
         a)).insertionSort keyLE).map fun x => x.2.2) ≠ a :: b :: l)) := rfl

theorem map_adjust_enum_snd (w : Bool) (e : Tod) (l : List Tod) :
    ((l.enum.map (adjust w e)).map fun x : Nat × Nat × Tod => x.2.2) = l := by
  rw [List.map_map]
  have hcomp : ((fun x : Nat × Nat × Tod => x.2.2) ∘ adjust w e) =
      (Prod.snd : Nat × Tod → Tod) := rfl
  rw [hcomp, List.enum_map_snd]

theorem normalize_idem_cons (t0 t1 : Tod) (rest : List Tod) :
    normalize_registro_times ((normalize_registro_times (t0 :: t1 :: rest)).1) =
      ((normalize_registro_times (t0 :: t1 :: rest)).1, false) := by
  obtain ⟨w, hw_def⟩ : ∃ w, wrap_likely t0 (t1 :: rest) = w := ⟨_, rfl⟩
  obtain ⟨sorted, hsorted_def⟩ : ∃ s,
      ((t0 :: t1 :: rest).enum.map (adjust w t0)).insertionSort keyLE = s := ⟨_, rfl⟩
  have hout_def : (normalize_registro_times (t0 :: t1 :: rest)).1 =
      sorted.map fun x => x.2.2 := by
    rw [← hsorted_def, ← hw_def]
    rfl
  have hsorted_pw : sorted.Pairwise keyLE := by
    rw [← hsorted_def]
    exact List.sorted_insertionSort keyLE _
  have hshape : ∀ x ∈ sorted, x.1 = aval w t0 x.2.2 := by
    intro x hx
    rw [← hsorted_def] at hx
    exact mem_adjusted_shape ((List.mem_insertionSort keyLE).mp hx)
  have hpw : (sorted.map fun x => x.2.2).Pairwise
      (fun a b : Tod => aval w t0 a ≤ aval w t0 b) := by
    refine List.Pairwise.map _ (fun a b h => h) ?_
    refine List.Pairwise.imp_of_mem ?_ hsorted_pw
    intro a b ha hb hr
    have h1 := hshape a ha
    have h2 := hshape b hb
    unfold keyLE at hr
    show aval w t0 a.2.2 ≤ aval w t0 b.2.2
    omega
  have hperm : (sorted.map fun x => x.2.2).Perm (t0 :: t1 :: rest) := by
    have hp := normalize_perm (t0 :: t1 :: rest)
    rwa [hout_def] at hp
  obtain ⟨o0, o1, orest, houts⟩ : ∃ a b l,
      (sorted.map fun x => x.2.2) = a :: b :: l := by
    have hlen : (sorted.map fun x => x.2.2).length = rest.length + 2 := by
      simpa using hperm.length_eq
    rcases hx : (sorted.map fun x => x.2.2) with _ | ⟨a, _ | ⟨b, l⟩⟩
    · rw [hx] at hlen
      simp only [List.length_nil] at hlen
      omega
    · rw [hx] at hlen
      simp only [List.length_cons, List.length_nil] at hlen
      omega
    · exact ⟨a, b, l, hx⟩
  rw [hout_def, houts]
  rw [houts] at hpw hperm
  rcases Bool.eq_false_or_eq_true w with hwt | hwf
  · -- overnight shift: the head of the output is the original entry punch
    obtain ⟨s0, stl, hs_eq⟩ : ∃ s0 stl, sorted = s0 :: stl := by
      rcases hsx : sorted with _ | ⟨s0, stl⟩
      · rw [hsx] at houts
        exact absurd houts (by simp)
      · exact ⟨s0, stl, rfl⟩
    have hs0 : s0.2.2 = o0 := by
      rw [hs_eq] at houts
      simp only [List.map_cons, List.cons.injEq] at houts
      exact houts.1
    have hm_mem : ((t0.val : Nat), 0, t0) ∈ sorted := by
      rw [← hsorted_def, List.mem_insertionSort, List.enum_cons, List.map_cons]
      have hadj : adjust w t0 (0, t0) = (t0.val, 0, t0) := by
        simp [adjust, aval_self]
      rw [hadj]
      exact List.mem_cons_self _ _
    have hlt : ∀ x ∈ sorted, x ≠ ((t0.val : Nat), 0, t0) →
        (t0.val < x.1 ∨ (t0.val = x.1 ∧ 0 < x.2.1)) := by
      intro x hx hne
      rw [← hsorted_def, List.mem_insertionSort] at hx
      obtain ⟨⟨i, t⟩, hit, rfl⟩ := List.mem_map.mp hx
      rcases idx_zero_of_mem_enum hit with ⟨hi0, ht0⟩ | hi1
      · exfalso
        apply hne
        rw [hi0, ht0]
        simp [adjust, aval_self]
      · have hge : t0.val ≤ aval w t0 t := by
          rw [hwt]
          exact aval_true_ge t0 t
        show t0.val < aval w t0 t ∨ (t0.val = aval w t0 t ∧ 0 < i)
        omega
    have hs0m : s0 = ((t0.val : Nat), 0, t0) := by
      apply sorted_head_min (by rw [← hs_eq]; exact hsorted_pw)
        (by rw [← hs_eq]; exact hm_mem)
      intro x hx hne
      exact hlt x (by rw [hs_eq]; exact hx) hne
    have ho0 : t0 = o0 := by
      rw [← hs0, hs0m]
    subst ho0
    have hhs_orig : ((t1 :: rest).any fun t => decide (t.val < t0.val)) = true :=
      wrap_likely_hs (hw_def.trans hwt)
    obtain ⟨xs, hxs_mem, hxs_lt⟩ : ∃ x ∈ t1 :: rest, x.val < t0.val := by
      simpa using hhs_orig
    have hxs_out : xs ∈ t0 :: o1 :: orest :=
      hperm.mem_iff.mpr (List.mem_cons_of_mem t0 hxs_mem)
    have hxs_tail : xs ∈ o1 :: orest := by
      rcases List.mem_cons.mp hxs_out with heq | h
      · exfalso
        rw [heq] at hxs_lt
        omega
      · exact h
    have hhs' : ((o1 :: orest).any fun t => decide (t.val < t0.val)) = true := by
      rw [List.any_eq_true]
      exact ⟨xs, hxs_tail, by simpa using hxs_lt⟩
    have hpm : ((t0 :: o1 :: orest).map Fin.val).Perm
        ((t0 :: t1 :: rest).map Fin.val) := hperm.map Fin.val
    have hspan : decide (((t0 :: o1 :: orest).map Fin.val).foldl max 0 -
          ((t0 :: o1 :: orest).map Fin.val).foldl min 1440 > 12 * 60) =
        decide (((t0 :: t1 :: rest).map Fin.val).foldl max 0 -
          ((t0 :: t1 :: rest).map Fin.val).foldl min 1440 > 12 * 60) := by
      rw [decide_eq_decide, hpm.foldl_eq 0, hpm.foldl_eq 1440]
    have hW : wrap_likely t0 (o1 :: orest) = w := by
      rw [wrap_likely_eq, hhs', hspan, ← hw_def, wrap_likely_eq, hhs_orig]
    have hpair2 : ((t0 :: o1 :: orest).enum.map (adjust w t0)).Pairwise keyLE :=
      pairwise_keyLE_enumFrom w t0 0 _ hpw
    rw [normalize_cons_eq, hW, List.Sorted.insertionSort_eq hpair2,
      map_adjust_enum_snd]
    simp

  · -- day shift: the output is sorted by plain minute-of-day
    have hval : (o0 :: o1 :: orest).Pairwise (fun a b : Tod => a.val ≤ b.val) := by
      refine hpw.imp ?_
      intro a b h
      rwa [hwf, aval_false, aval_false] at h
    have hhs : ((o1 :: orest).any fun t => decide (t.val < o0.val)) = false := by
      rw [List.any_eq_false]
      intro x hx
      have hle := (List.pairwise_cons.mp hval).1 x hx
      simp only [decide_eq_true_eq]
      omega
    have hW : wrap_likely o0 (o1 :: orest) = w := by
      rw [wrap_likely_eq, hhs, hwf]
      simp
    have hpair2 : ((o0 :: o1 :: orest).enum.map (adjust w o0)).Pairwise keyLE := by
      refine pairwise_keyLE_enumFrom w o0 0 _ ?_
      refine hval.imp ?_
      intro a b h
      rw [hwf, aval_false, aval_false]
      exact h
    rw [normalize_cons_eq, hW, List.Sorted.insertionSort_eq hpair2,
      map_adjust_enum_snd]
    simp
/-- Claim C9: normalization is idempotent — applying
`normalize_registro_times` to its own output returns the same list with the
`reordered` flag `false`. -/
theorem claim9_normalize_idempotent :
    ∀ ts : List Tod,
      normalize_registro_times ((normalize_registro_times ts).1) =
        ((normalize_registro_times ts).1, false)
  | [] => rfl
  | [_] => rfl
  | t0 :: t1 :: rest => normalize_idem_cons t0 t1 rest

/-! ### The shift timeline, positionally (shared by claims C1 and C5) -/

theorem toShiftDt_nonneg (c : Bool) (ent t : Tod) : 0 ≤ toShiftDt c ent t := by
  have := t.isLt
  simp only [toShiftDt]
  split <;> omega

theorem toShiftDt_lt (c : Bool) (ent t : Tod) : toShiftDt c ent t < 2880 := by
  have := t.isLt
  simp only [toShiftDt]
  split <;> omega

theorem toShiftDt_sub_bound (c : Bool) (ent a b : Tod) :
    -1440 < toShiftDt c ent b - toShiftDt c ent a ∧
      toShiftDt c ent b - toShiftDt c ent a < 1440 := by
  have ha := a.isLt
  have hb := b.isLt
  simp only [toShiftDt]
  cases c with
  | false => simp; omega
  | true =>
    by_cases h1 : a.val < ent.val <;> by_cases h2 : b.val < ent.val <;>
      simp [h1, h2] <;> omega

theorem toShiftDt_inj (c : Bool) (ent : Tod) {a b : Tod}
    (h : toShiftDt c ent a = toShiftDt c ent b) : a = b := by
  have ha := a.isLt
  have hb := b.isLt
  simp only [toShiftDt] at h
  have hv : a.val = b.val := by
    rcases Bool.eq_false_or_eq_true c with hc | hc <;> rw [hc] at h <;>
      by_cases h1 : a.val < ent.val <;> by_cases h2 : b.val < ent.val <;>
        simp [h1, h2] at h <;> omega
  exact Fin.ext hv

theorem toShiftDt_ent (c : Bool) (ent : Tod) : toShiftDt c ent ent = ent.val := by
  simp [toShiftDt]

/-- With the crossing flag the engine actually passes, the Exit position is
never below the Entry position, so `_window` never takes its wrap branch. -/
theorem toShiftDt_sal_ge (ent sal : Tod) :
    (ent.val : Int) ≤ toShiftDt (decide (sal.val < ent.val)) ent sal := by
  have := sal.isLt
  have := ent.isLt
  simp only [toShiftDt]
  by_cases h : sal.val < ent.val <;> simp [h] <;> omega

theorem shiftWindow_eq (ent sal : Tod) :
    shiftWindow (decide (sal.val < ent.val)) ent sal =
      ((ent.val : Int), toShiftDt (decide (sal.val < ent.val)) ent sal) := by
  have h1 := toShiftDt_sal_ge ent sal
  simp only [shiftWindow, toShiftDt_ent]
  rw [if_neg (by omega)]

/-- The claim's placement of an interval on the shift timeline: it starts
at its start's position and runs forward to its end, the end taken on the
following day when its position falls before the start's. -/
def ivPos (c : Bool) (ent : Tod) (iv : Tod × Tod) : Int × Int :=
  let a := toShiftDt c ent iv.1
  let b := toShiftDt c ent iv.2
  (a, a + (b - a) % 1440)

theorem ivPos_eq (c : Bool) (ent : Tod) (iv : Tod × Tod) :
    ivPos c ent iv =
      (toShiftDt c ent iv.1,
       if toShiftDt c ent iv.2 < toShiftDt c ent iv.1 then toShiftDt c ent iv.2 + 1440
       else toShiftDt c ent iv.2) := by
  obtain ⟨hb1, hb2⟩ := toShiftDt_sub_bound c ent iv.1 iv.2
  simp only [ivPos, Prod.mk.injEq, true_and]
  split <;> omega

/-- The claim's overlap of two intervals: the length of the intersection of
their placements on the shift timeline, clamped at zero. -/
def ivOverlap (c : Bool) (ent : Tod) (a b : Tod × Tod) : Int :=
  let A := ivPos c ent a
  let B := ivPos c ent b
  max 0 (min A.2 B.2 - max A.1 B.1)

theorem ivOverlap_eq_overlap_min (c : Bool) (ent : Tod) (a b : Tod × Tod) :
    ivOverlap c ent a b = overlap_min c ent a.1 a.2 b.1 b.2 := by
  simp only [ivOverlap, overlap_min, ivPos_eq]
  split_ifs <;> omega

/-- `minutos_entre` is exactly the placement length of the interval on the
shift timeline, whatever the crossing flag. -/
theorem minutos_entre_eq_ivPos_len (c : Bool) (ent : Tod) (x y : Tod) :
    minutos_entre (some x) (some y) = (ivPos c ent (x, y)).2 - (ivPos c ent (x, y)).1 := by
  have hx := x.isLt
  have hy := y.isLt
  rw [ivPos_eq]
  dsimp only
  simp only [minutos_entre, toShiftDt]
  rcases Bool.eq_false_or_eq_true c with hc | hc <;> rw [hc] <;>
    by_cases h1 : x.val < ent.val <;> by_cases h2 : y.val < ent.val <;>
      simp only [h1, h2, decide_True, decide_False, Bool.true_and, Bool.false_and,
        Bool.and_true, Bool.and_false, if_true, if_false, decide_eq_true_eq] <;>
      split_ifs <;> omega

/-! ### Claim C1 — the no-labor pipeline as the claim words it: clipping -/

/-- Claim C1's first step: an interval with absent start is skipped, an
absent end is replaced by `Exit`. -/
def nolabEfectivos (sal : Tod) (exc : List NoLabInterval) : List (Tod × Tod) :=
  exc.filterMap fun e =>
    match e.1 with
    | none => none
    | some i => some (i, e.2.1.getD sal)

theorem ofMinInt_val (i : Int) : ((ofMinInt i).val : Int) = i % 1440 := by
  simp only [ofMinInt]
  omega

theorem toShiftDt_sal_lt (ent sal : Tod) :
    toShiftDt (decide (sal.val < ent.val)) ent sal < (ent.val : Int) + 1440 := by
  have := sal.isLt
  have := ent.isLt
  simp only [toShiftDt]
  by_cases h : sal.val < ent.val <;> simp [h] <;> omega

/-- Reading a timeline position inside the shift window back as a
wall-clock time and re-placing it recovers the position. -/
theorem toShiftDt_ofMinInt (ent sal : Tod) {i : Int}
    (h0 : (ent.val : Int) ≤ i)
    (h1 : i ≤ toShiftDt (decide (sal.val < ent.val)) ent sal) :
    toShiftDt (decide (sal.val < ent.val)) ent (ofMinInt i) = i := by
  have he := ent.isLt
  have hs := sal.isLt
  have hv := ofMinInt_val i
  simp only [toShiftDt] at h1 ⊢
  by_cases hc : sal.val < ent.val <;>
    by_cases hd : (ofMinInt i).val < ent.val <;>
      simp [hc, hd] at h1 ⊢ <;> omega

/-- The claim's clipping of one interval to the `[Entry, Exit]` window on
the shift timeline: wholly outside means dropped, its full duration
counted; otherwise the interval is trimmed to the window and the
trimmed-off minutes are counted. -/
def clipSpecTod (c : Bool) (ent sal : Tod) (iv : Tod × Tod) : Option (Tod × Tod) × Int :=
  let A := ivPos c ent iv
  let s0 : Int := (ent.val : Int)
  let s1 : Int := toShiftDt c ent sal
  let i0 := max A.1 s0
  let i1 := min A.2 s1
  if i1 ≤ i0 then (none, A.2 - A.1)
  else (some (ofMinInt i0, ofMinInt i1), (A.2 - A.1) - (i1 - i0))

theorem clip_to_shift_eq (ent sal : Tod) (iv : Tod × Tod) :
    clip_to_shift (decide (sal.val < ent.val)) ent sal iv.1 iv.2 =
      (match clipSpecTod (decide (sal.val < ent.val)) ent sal iv with
       | (none, _) => none
       | (some p, g) => some (p.1, p.2, g)) := by
  have hW := shiftWindow_eq ent sal
  have hA := ivPos_eq (decide (sal.val < ent.val)) ent iv
  have ha0 := toShiftDt_nonneg (decide (sal.val < ent.val)) ent iv.1
  simp only [clip_to_shift, clipSpecTod, hW, hA]
  split_ifs <;>
    first
      | rfl
      | (simp only [Option.some.injEq, Prod.mk.injEq, true_and]
         omega)

theorem minutos_entre_eq_clipSpec_none (c : Bool) (ent sal : Tod) (iv : Tod × Tod)
    {g : Int} (h : clipSpecTod c ent sal iv = (none, g)) :
    minutos_entre (some iv.1) (some iv.2) = g := by
  simp only [clipSpecTod] at h
  split at h
  · simp only [Prod.mk.injEq] at h
    rw [← h.2]
    exact minutos_entre_eq_ivPos_len c ent iv.1 iv.2
  · exact absurd h (by simp)

/-- A well-placed interval: within the shift window and forward-running on
the shift timeline. -/
def GoodIv (c : Bool) (ent sal : Tod) (iv : Tod × Tod) : Prop :=
  (ent.val : Int) ≤ (ivPos c ent iv).1 ∧
  (ivPos c ent iv).1 < (ivPos c ent iv).2 ∧
  (ivPos c ent iv).2 ≤ toShiftDt c ent sal

theorem ivPos_ofMinInt (ent sal : Tod) {i0 i1 : Int}
    (hl : (ent.val : Int) ≤ i0) (hm : i0 < i1)
    (hr : i1 ≤ toShiftDt (decide (sal.val < ent.val)) ent sal) :
    ivPos (decide (sal.val < ent.val)) ent (ofMinInt i0, ofMinInt i1) = (i0, i1) := by
  have hs1 := toShiftDt_sal_lt ent sal
  have h0 : toShiftDt (decide (sal.val < ent.val)) ent (ofMinInt i0) = i0 :=
    toShiftDt_ofMinInt ent sal hl (by omega)
  have h1 : toShiftDt (decide (sal.val < ent.val)) ent (ofMinInt i1) = i1 :=
    toShiftDt_ofMinInt ent sal (by omega) hr
  rw [ivPos_eq]
  simp only [h0, h1, Prod.mk.injEq]
  rw [if_neg (by omega)]
  exact ⟨trivial, rfl⟩

theorem clipSpecTod_good (ent sal : Tod) (iv : Tod × Tod) {p : Tod × Tod} {g : Int}
    (h : clipSpecTod (decide (sal.val < ent.val)) ent sal iv = (some p, g)) :
    GoodIv (decide (sal.val < ent.val)) ent sal p := by
  simp only [clipSpecTod] at h
  split at h
  · exact absurd h (by simp)
  · rename_i hlt
    simp only [Prod.mk.injEq, Option.some.injEq] at h
    obtain ⟨hp, -⟩ := h
    rw [← hp]
    have hgrow : (ent.val : Int) ≤
        max (ivPos (decide (sal.val < ent.val)) ent iv).1 (ent.val : Int) :=
      le_max_right _ _
    have hup : min (ivPos (decide (sal.val < ent.val)) ent iv).2
        (toShiftDt (decide (sal.val < ent.val)) ent sal) ≤
        toShiftDt (decide (sal.val < ent.val)) ent sal := min_le_right _ _
    have hiv := ivPos_ofMinInt ent sal hgrow (by omega) hup
    refine ⟨?_, ?_, ?_⟩
    · rw [hiv]
      exact hgrow
    · rw [hiv]
      dsimp only
      omega
    · rw [hiv]
      exact hup

/-- Claim C1's clipping pass over the effective intervals, accumulating the
ignored-outside-shift minutes. -/
def clipAllSpec (c : Bool) (ent sal : Tod) : List (Tod × Tod) → List (Tod × Tod) × Int
  | [] => ([], 0)
  | iv :: ivs =>
    let x := clipSpecTod c ent sal iv
    let r := clipAllSpec c ent sal ivs
    (x.1.toList ++ r.1, x.2 + r.2)

theorem collect_eq_spec (ent sal : Tod) :
    ∀ exc : List NoLabInterval,
      collect_intervals (decide (sal.val < ent.val)) ent sal exc =
        clipAllSpec (decide (sal.val < ent.val)) ent sal (nolabEfectivos sal exc)
  | [] => rfl
  | (none, f, n) :: rest => collect_eq_spec ent sal rest
  | (some i, f, n) :: rest => by
    have ih := collect_eq_spec ent sal rest
    have hclip := clip_to_shift_eq ent sal (i, f.getD sal)
    simp only [collect_intervals, nolabEfectivos, List.filterMap_cons] at ih ⊢
    rw [hclip]
    cases hcs : clipSpecTod (decide (sal.val < ent.val)) ent sal (i, f.getD sal) with
    | mk o g =>
      cases o with
      | none =>
        have hg := minutos_entre_eq_clipSpec_none _ ent sal _ hcs
        simp only [clipAllSpec, hcs, Option.toList_none, List.nil_append]
        rw [ih, hg]
      | some p =>
        simp only [clipAllSpec, hcs, Option.toList_some, List.singleton_append]
        rw [ih]

theorem clipAllSpec_good (ent sal : Tod) :
    ∀ (l : List (Tod × Tod)) (iv : Tod × Tod),
      iv ∈ (clipAllSpec (decide (sal.val < ent.val)) ent sal l).1 →
      GoodIv (decide (sal.val < ent.val)) ent sal iv
  | [], _, h => absurd h (by simp [clipAllSpec])
  | x :: l, iv, h => by
    simp only [clipAllSpec, List.mem_append] at h
    rcases h with h | h
    · cases hcs : (clipSpecTod (decide (sal.val < ent.val)) ent sal x) with
      | mk o g =>
        cases o with
        | none => rw [hcs] at h; exact absurd h (by simp)
        | some p =>
          rw [hcs] at h
          simp only [Option.toList_some, List.mem_singleton] at h
          rw [h]
          exact clipSpecTod_good ent sal x hcs
    · exact clipAllSpec_good ent sal l iv h

/-! ### Claim C1 — the merge stage as the claim words it -/

/-- Claim C1's merge of sorted intervals: the incoming interval merges into
the running one when they overlap by more than `0` minutes or are exactly
back-to-back; merging extends the running interval's end to the later of
the two ends on the shift timeline and accumulates the overlapping minutes
into the internal-overlap counter. -/
def mergeSpecGo (c : Bool) (ent : Tod) : Tod × Tod → List (Tod × Tod) → List (Tod × Tod) × Int
  | cur, [] => ([cur], 0)
  | cur, y :: ys =>
    let ov := ivOverlap c ent cur y
    if 0 < ov ∨ cur.2 = y.1 then
      let ext := if (ivPos c ent cur).2 < (ivPos c ent y).2 then (cur.1, y.2) else cur
      let r := mergeSpecGo c ent ext ys
      (r.1, ov + r.2)
    else
      let r := mergeSpecGo c ent y ys
      (cur :: r.1, r.2)

/-- The merged intervals and the internal-overlap counter of the claim. -/
def mergeSpec (c : Bool) (ent : Tod) : List (Tod × Tod) → List (Tod × Tod) × Int
  | [] => ([], 0)
  | x :: xs => mergeSpecGo c ent x xs

theorem merge_step_cons (c : Bool) (ent : Tod) (cur : Tod × Tod)
    (prev : List (Tod × Tod)) (s : Int) (y : Tod × Tod) :
    merge_step c ent (cur :: prev, s) y =
      if 0 < overlap_min c ent cur.1 cur.2 y.1 y.2 ∨ cur.2 = y.1 then
        ((if (ivPos c ent cur).2 < (ivPos c ent y).2 then (cur.1, y.2) else cur) :: prev,
         s + overlap_min c ent cur.1 cur.2 y.1 y.2)
      else (y :: cur :: prev, s) := by
  obtain ⟨li, lf⟩ := cur
  simp only [merge_step, ivPos_eq]
  split_ifs <;> rfl

theorem merge_foldl_eq_spec (c : Bool) (ent : Tod) :
    ∀ (l : List (Tod × Tod)) (cur : Tod × Tod) (prev : List (Tod × Tod)) (s : Int),
      (l.foldl (merge_step c ent) (cur :: prev, s)).1.reverse =
        prev.reverse ++ (mergeSpecGo c ent cur l).1 ∧
      (l.foldl (merge_step c ent) (cur :: prev, s)).2 =
        s + (mergeSpecGo c ent cur l).2
  | [], cur, prev, s => by
    constructor
    · simp [mergeSpecGo]
    · simp [mergeSpecGo]
  | y :: ys, cur, prev, s => by
    have hov := ivOverlap_eq_overlap_min c ent cur y
    simp only [List.foldl_cons, merge_step_cons, mergeSpecGo, hov]
    by_cases hcond : 0 < overlap_min c ent cur.1 cur.2 y.1 y.2 ∨ cur.2 = y.1
    · rw [if_pos hcond, if_pos hcond]
      have ih := merge_foldl_eq_spec c ent ys
        (if (ivPos c ent cur).2 < (ivPos c ent y).2 then (cur.1, y.2) else cur) prev
        (s + overlap_min c ent cur.1 cur.2 y.1 y.2)
      constructor
      · exact ih.1
      · rw [ih.2]
        omega
    · rw [if_neg hcond, if_neg hcond]
      have ih := merge_foldl_eq_spec c ent ys y (cur :: prev) s
      constructor
      · rw [ih.1, List.reverse_cons, List.append_assoc, List.singleton_append]
      · exact ih.2

theorem merge_full_eq_spec (c : Bool) (ent : Tod) (l : List (Tod × Tod)) :
    (l.foldl (merge_step c ent) ([], 0)).1.reverse = (mergeSpec c ent l).1 ∧
    (l.foldl (merge_step c ent) ([], 0)).2 = (mergeSpec c ent l).2 := by
  cases l with
  | nil => exact ⟨rfl, rfl⟩
  | cons x xs =>
    have h0 : merge_step c ent ([], 0) x = ([x], 0) := rfl
    simp only [List.foldl_cons, h0, mergeSpec]
    have h := merge_foldl_eq_spec c ent xs x [] 0
    constructor
    · rw [h.1]
      simp
    · rw [h.2]
      omega

/-! ### Claim C1 — sorting by offset from Entry, and the deduction sums -/

/-- The claim's sort key: an interval's offset from Entry on the shift
timeline. -/
def offsetFromEntry (c : Bool) (ent : Tod) (iv : Tod × Tod) : Int :=
  (ivPos c ent iv).1 - (ent.val : Int)

/-- The claim's sort order on clipped intervals. -/
def offsetLE (c : Bool) (ent : Tod) (a b : Tod × Tod) : Prop :=
  offsetFromEntry c ent a ≤ offsetFromEntry c ent b

instance (c : Bool) (ent : Tod) : DecidableRel (offsetLE c ent) := fun a b =>
  inferInstanceAs (Decidable (_ ≤ _))

theorem minutos_entre_ent_eq (c : Bool) (ent x : Tod)
    (h : (ent.val : Int) ≤ toShiftDt c ent x) :
    minutos_entre (some ent) (some x) = toShiftDt c ent x - (ent.val : Int) := by
  have hx := x.isLt
  have he := ent.isLt
  simp only [minutos_entre, toShiftDt] at h ⊢
  rcases Bool.eq_false_or_eq_true c with hc | hc <;> rw [hc] at h ⊢ <;>
    by_cases hp : x.val < ent.val <;>
      simp [hp] at h ⊢ <;> omega

/-- On the clipped (in-window) intervals, the engine's sort key
`minutos_entre(ent, ·)` computes exactly the claim's offset from Entry, so
the two stable sorts coincide. -/
theorem sort_eq_offset (ent sal : Tod) (l : List (Tod × Tod))
    (hg : ∀ iv ∈ l, GoodIv (decide (sal.val < ent.val)) ent sal iv) :
    l.insertionSort (intervalLE ent) =
      l.insertionSort (offsetLE (decide (sal.val < ent.val)) ent) := by
  have h := List.map_insertionSort (intervalLE ent)
    (offsetLE (decide (sal.val < ent.val)) ent) id l ?_
  · simpa using h
  · intro a ha b hb
    have hga := (hg a ha).1
    have hgb := (hg b hb).1
    simp only [intervalLE, offsetLE, offsetFromEntry, id]
    have hpa : (ivPos (decide (sal.val < ent.val)) ent a).1 =
      toShiftDt (decide (sal.val < ent.val)) ent a.1 := rfl
    have hpb : (ivPos (decide (sal.val < ent.val)) ent b).1 =
      toShiftDt (decide (sal.val < ent.val)) ent b.1 := rfl
    rw [minutos_entre_ent_eq (decide (sal.val < ent.val)) ent a.1 (hpa ▸ hga),
      minutos_entre_ent_eq (decide (sal.val < ent.val)) ent b.1 (hpb ▸ hgb)]
    constructor <;> (intro h'; omega)

/-- The claim's overlap of a merged interval with the recorded deduction
windows: the sum of its overlaps with each window. -/
def ventanaOverlaps (c : Bool) (ent : Tod) (ventanas : List (Tod × Tod))
    (m : Tod × Tod) : Int :=
  (ventanas.map fun v => ivOverlap c ent m v).sum

/-- The claim's internal `nolab_overlap_cd` counter: the total overlap of
the merged intervals with the recorded deduction windows. -/
def nolabOverlapSpec (c : Bool) (ent : Tod) (ventanas : List (Tod × Tod))
    (merged : List (Tod × Tod)) : Int :=
  (merged.map fun m => ventanaOverlaps c ent ventanas m).sum

/-- The amended claim's no-labor deduction: for each merged interval its
duration minus its overlap with the recorded windows, clamped below at
zero, summed. -/
def nolabDedSpec (c : Bool) (ent : Tod) (ventanas : List (Tod × Tod))
    (merged : List (Tod × Tod)) : Int :=
  (merged.map fun m =>
    max 0 (minutos_entre (some m.1) (some m.2) - ventanaOverlaps c ent ventanas m)).sum

/-- The claim's literal (unclamped) no-labor deduction formula: the sum of
each merged interval's duration minus its overlap with the recorded
windows. -/
def nolabDedClaim (c : Bool) (ent : Tod) (ventanas : List (Tod × Tod))
    (merged : List (Tod × Tod)) : Int :=
  (merged.map fun m =>
    minutos_entre (some m.1) (some m.2) - ventanaOverlaps c ent ventanas m).sum

theorem foldl_overlap_eq_sum (c : Bool) (ent : Tod) (m : Tod × Tod) :
    ∀ (vs : List (Tod × Tod)) (acc : Int),
      vs.foldl (fun a w => a + overlap_min c ent m.1 m.2 w.1 w.2) acc =
        acc + ventanaOverlaps c ent vs m
  | [], acc => by simp [ventanaOverlaps]
  | w :: vs, acc => by
    have ih := foldl_overlap_eq_sum c ent m vs (acc + overlap_min c ent m.1 m.2 w.1 w.2)
    have hov := ivOverlap_eq_overlap_min c ent m w
    simp only [List.foldl_cons, ventanaOverlaps, List.map_cons, List.sum_cons] at ih ⊢
    rw [ih]
    simp only [ventanaOverlaps] at *
    omega

theorem deduct_merged_eq_spec (c : Bool) (ent : Tod) (ventanas : List (Tod × Tod)) :
    ∀ l : List (Tod × Tod),
      deduct_merged c ent ventanas l =
        (nolabDedSpec c ent ventanas l, nolabOverlapSpec c ent ventanas l)
  | [] => rfl
  | (ini, fin) :: l => by
    have ih := deduct_merged_eq_spec c ent ventanas l
    have hfold := foldl_overlap_eq_sum c ent (ini, fin) ventanas 0
    simp only [deduct_merged, nolabDedSpec, nolabOverlapSpec, List.map_cons,
      List.sum_cons, ih, hfold, Prod.mk.injEq]
    constructor <;> omega

/-- Claim C1 (amended): for every events map with Entry and Exit present
and every exception list, `calcular_trabajado` processes the exceptions
exactly as the claim describes — skip absent starts, substitute Exit for
absent ends, clip to the shift window accumulating the ignored-outside
minutes, sort by offset from Entry, merge overlapping or back-to-back
intervals extending to the later end and accumulating internal overlap —
and the no-labor deduction is the sum over merged intervals of each
interval's duration minus its overlap with the recorded meal- and
dinner-deduction windows, that difference clamped below at zero (the
claim's unclamped formula fails when the windows overlap each other). -/
theorem claim1_amended (ev : Eventos) (cfg : AppConfig) (exc : List NoLabInterval)
    (ent sal : Tod) (he : ev.entrada = some ent) (hs : ev.salida = some sal) :
    (calcular_trabajado ev cfg exc).ignored_outside_shift =
      (clipAllSpec (decide (sal.val < ent.val)) ent sal (nolabEfectivos sal exc)).2 ∧
    (calcular_trabajado ev cfg exc).nolab_solape_interno =
      (mergeSpec (decide (sal.val < ent.val)) ent
        ((clipAllSpec (decide (sal.val < ent.val)) ent sal
          (nolabEfectivos sal exc)).1.insertionSort
            (offsetLE (decide (sal.val < ent.val)) ent))).2 ∧
    (calcular_trabajado ev cfg exc).nolab_overlap_cd =
      nolabOverlapSpec (decide (sal.val < ent.val)) ent
        (ventanas_descuento sal ev.salida_comer
          (comida_calc cfg sal ev.salida_comer ev.regreso_comer).2
          ev.salida_cenar ev.regreso_cenar)
        (mergeSpec (decide (sal.val < ent.val)) ent
          ((clipAllSpec (decide (sal.val < ent.val)) ent sal
            (nolabEfectivos sal exc)).1.insertionSort
              (offsetLE (decide (sal.val < ent.val)) ent))).1 ∧
    (calcular_trabajado ev cfg exc).extra_ded =
      nolabDedSpec (decide (sal.val < ent.val)) ent
        (ventanas_descuento sal ev.salida_comer
          (comida_calc cfg sal ev.salida_comer ev.regreso_comer).2
          ev.salida_cenar ev.regreso_cenar)
        (mergeSpec (decide (sal.val < ent.val)) ent
          ((clipAllSpec (decide (sal.val < ent.val)) ent sal
            (nolabEfectivos sal exc)).1.insertionSort
              (offsetLE (decide (sal.val < ent.val)) ent))).1 := by
  obtain ⟨e1, e2, e3, e4, e5, e6, e7⟩ := ev
  dsimp only at he hs
  subst he
  subst hs
  have hcollect := collect_eq_spec ent sal exc
  have hsort := sort_eq_offset ent sal
    (clipAllSpec (decide (sal.val < ent.val)) ent sal (nolabEfectivos sal exc)).1
    (clipAllSpec_good ent sal (nolabEfectivos sal exc))
  have hmerge := merge_full_eq_spec (decide (sal.val < ent.val)) ent
    ((clipAllSpec (decide (sal.val < ent.val)) ent sal
      (nolabEfectivos sal exc)).1.insertionSort
        (offsetLE (decide (sal.val < ent.val)) ent))
  have hded := deduct_merged_eq_spec (decide (sal.val < ent.val)) ent
    (ventanas_descuento sal e2 (comida_calc cfg sal e2 e3).2 e4 e5)
    ((mergeSpec (decide (sal.val < ent.val)) ent
      ((clipAllSpec (decide (sal.val < ent.val)) ent sal
        (nolabEfectivos sal exc)).1.insertionSort
          (offsetLE (decide (sal.val < ent.val)) ent))).1)
  simp only [calcular_trabajado, hcollect, hsort]
  refine ⟨trivial, hmerge.2, ?_, ?_⟩
  · rw [hmerge.1, hded]
  · rw [hmerge.1, hded]

/-- The events of the C1 counterexample: Entry 08:00, Exit 20:00, MealOut
12:00 with no MealIn (so the meal runs to Exit and 480 minutes are fully
deducted, window 12:00–20:00), DinnerOut 12:00 and DinnerIn 20:00 (window
12:00–20:00 again). -/
def evC1 : Eventos :=
  { entrada := some (hhmm 8 0), salida_comer := some (hhmm 12 0), regreso_comer := none
    salida_cenar := some (hhmm 12 0), regreso_cenar := some (hhmm 20 0)
    salida := some (hhmm 20 0), extra_registros := 0 }

/-- The exception list of the C1 counterexample: one no-labor interval
12:00–20:00, lying inside both recorded windows. -/
def excC1 : List NoLabInterval := [(some (hhmm 12 0), some (hhmm 20 0), "x")]

/-- Claim C1 counterexample: with both recorded deduction windows equal to
12:00–20:00 and one merged no-labor interval 12:00–20:00, the engine
deducts `max 0 (480 - 960) = 0`, while the claim's unclamped formula gives
`480 - 960 = -480`. -/
theorem claim1_counterexample :
    (calcular_trabajado evC1 cfg0 excC1).extra_ded = 0 ∧
    nolabDedClaim (decide ((hhmm 20 0).val < (hhmm 8 0).val)) (hhmm 8 0)
      (ventanas_descuento (hhmm 20 0) evC1.salida_comer
        (comida_calc cfg0 (hhmm 20 0) evC1.salida_comer evC1.regreso_comer).2
        evC1.salida_cenar evC1.regreso_cenar)
      (mergeSpec (decide ((hhmm 20 0).val < (hhmm 8 0).val)) (hhmm 8 0)
        ((clipAllSpec (decide ((hhmm 20 0).val < (hhmm 8 0).val)) (hhmm 8 0) (hhmm 20 0)
          (nolabEfectivos (hhmm 20 0) excC1)).1.insertionSort
            (offsetLE (decide ((hhmm 20 0).val < (hhmm 8 0).val)) (hhmm 8 0)))).1 = -480 ∧
    ((0 : Int) ≠ -480) := by
  refine ⟨by decide, by decide, by decide⟩

/-- Claim C1 witness: the amended pipeline equivalence at the concrete
counterexample events and exception list. -/
theorem claim1_witness :
    (calcular_trabajado evC1 cfg0 excC1).ignored_outside_shift =
      (clipAllSpec (decide ((hhmm 20 0).val < (hhmm 8 0).val)) (hhmm 8 0) (hhmm 20 0)
        (nolabEfectivos (hhmm 20 0) excC1)).2 ∧
    (calcular_trabajado evC1 cfg0 excC1).nolab_solape_interno =
      (mergeSpec (decide ((hhmm 20 0).val < (hhmm 8 0).val)) (hhmm 8 0)
        ((clipAllSpec (decide ((hhmm 20 0).val < (hhmm 8 0).val)) (hhmm 8 0) (hhmm 20 0)
          (nolabEfectivos (hhmm 20 0) excC1)).1.insertionSort
            (offsetLE (decide ((hhmm 20 0).val < (hhmm 8 0).val)) (hhmm 8 0)))).2 ∧
    (calcular_trabajado evC1 cfg0 excC1).nolab_overlap_cd =
      nolabOverlapSpec (decide ((hhmm 20 0).val < (hhmm 8 0).val)) (hhmm 8 0)
        (ventanas_descuento (hhmm 20 0) evC1.salida_comer
          (comida_calc cfg0 (hhmm 20 0) evC1.salida_comer evC1.regreso_comer).2
          evC1.salida_cenar evC1.regreso_cenar)
        (mergeSpec (decide ((hhmm 20 0).val < (hhmm 8 0).val)) (hhmm 8 0)
          ((clipAllSpec (decide ((hhmm 20 0).val < (hhmm 8 0).val)) (hhmm 8 0) (hhmm 20 0)
            (nolabEfectivos (hhmm 20 0) excC1)).1.insertionSort
              (offsetLE (decide ((hhmm 20 0).val < (hhmm 8 0).val)) (hhmm 8 0)))).1 ∧
    (calcular_trabajado evC1 cfg0 excC1).extra_ded =
      nolabDedSpec (decide ((hhmm 20 0).val < (hhmm 8 0).val)) (hhmm 8 0)
        (ventanas_descuento (hhmm 20 0) evC1.salida_comer
          (comida_calc cfg0 (hhmm 20 0) evC1.salida_comer evC1.regreso_comer).2
          evC1.salida_cenar evC1.regreso_cenar)
        (mergeSpec (decide ((hhmm 20 0).val < (hhmm 8 0).val)) (hhmm 8 0)
          ((clipAllSpec (decide ((hhmm 20 0).val < (hhmm 8 0).val)) (hhmm 8 0) (hhmm 20 0)
            (nolabEfectivos (hhmm 20 0) excC1)).1.insertionSort
              (offsetLE (decide ((hhmm 20 0).val < (hhmm 8 0).val)) (hhmm 8 0)))).1 :=
  claim1_amended evC1 cfg0 excC1 (hhmm 8 0) (hhmm 20 0) rfl rfl

/-! ### Claim C5 — deduction windows as segments on the shift timeline -/

/-- Length of the part of segment `w` lying inside `[x, y)` (positions on
the shift timeline). -/
def interLen (x y : Int) (w : Int × Int) : Int := max 0 (min w.2 y - max w.1 x)

/-- Total length of the parts of the segments `vs` inside `[x, y)`. -/
def measInter (vs : List (Int × Int)) (x y : Int) : Int :=
  (vs.map (interLen x y)).sum

/-- The shape the recorded deduction-window list always has: at most two
forward-running segments, the first ending no later than the second
starts. -/
def vsOk : List (Int × Int) → Prop
  | [] => True
  | [w] => w.1 ≤ w.2
  | [w1, w2] => w1.1 ≤ w1.2 ∧ w1.2 ≤ w2.1 ∧ w2.1 ≤ w2.2
  | _ => False

theorem measInter_le (vs : List (Int × Int)) (hvs : vsOk vs) {x y : Int}
    (hxy : x ≤ y) : measInter vs x y ≤ y - x := by
  rcases vs with _ | ⟨w1, _ | ⟨w2, _ | ⟨w3, t⟩⟩⟩
  · simp [measInter]
    omega
  · simp only [measInter, List.map_cons, List.map_nil, List.sum_cons, List.sum_nil,
      interLen, vsOk] at hvs ⊢
    omega
  · simp only [measInter, List.map_cons, List.map_nil, List.sum_cons, List.sum_nil,
      interLen, vsOk] at hvs ⊢
    omega
  · exact absurd hvs (by simp [vsOk])

theorem measInter_split (vs : List (Int × Int)) (hvs : vsOk vs) {x m y : Int}
    (hxm : x ≤ m) (hmy : m ≤ y) :
    measInter vs x y = measInter vs x m + measInter vs m y := by
  rcases vs with _ | ⟨w1, _ | ⟨w2, _ | ⟨w3, t⟩⟩⟩
  · simp [measInter]
  · simp only [measInter, List.map_cons, List.map_nil, List.sum_cons, List.sum_nil,
      interLen, vsOk] at hvs ⊢
    omega
  · simp only [measInter, List.map_cons, List.map_nil, List.sum_cons, List.sum_nil,
      interLen, vsOk] at hvs ⊢
    omega
  · exact absurd hvs (by simp [vsOk])

theorem measInter_full (vs : List (Int × Int)) (hvs : vsOk vs) {x y : Int}
    (hin : ∀ w ∈ vs, x ≤ w.1 ∧ w.2 ≤ y) :
    measInter vs x y = (vs.map (fun w => w.2 - w.1)).sum := by
  rcases vs with _ | ⟨w1, _ | ⟨w2, _ | ⟨w3, t⟩⟩⟩
  · simp [measInter]
  · have h1 := hin w1 (by simp)
    simp only [measInter, List.map_cons, List.map_nil, List.sum_cons, List.sum_nil,
      interLen, vsOk] at hvs h1 ⊢
    omega
  · have h1 := hin w1 (by simp)
    have h2 := hin w2 (by simp)
    simp only [measInter, List.map_cons, List.map_nil, List.sum_cons, List.sum_nil,
      interLen, vsOk] at hvs h1 h2 ⊢
    omega
  · exact absurd hvs (by simp [vsOk])

/-- The sweep bound: pairwise-separated forward segments inside `[t, s1]`
can, outside the deduction windows, cover at most `(s1 - t)` minus the part
of the windows inside `[t, s1]`. -/
theorem sweep_ded (vs : List (Int × Int)) (hvs : vsOk vs) (s1 : Int) :
    ∀ (ms : List (Int × Int)) (t : Int), t ≤ s1 →
      (∀ m ∈ ms, t ≤ m.1 ∧ m.1 ≤ m.2 ∧ m.2 ≤ s1) →
      ms.Pairwise (fun a b => a.2 ≤ b.1) →
      (ms.map fun m => max 0 ((m.2 - m.1) - measInter vs m.1 m.2)).sum ≤
        (s1 - t) - measInter vs t s1
  | [], t, hts, _, _ => by
    have h := measInter_le vs hvs hts
    simp only [List.map_nil, List.sum_nil]
    omega
  | (a, b) :: ms, t, hts, hmem, hpw => by
    rw [List.pairwise_cons] at hpw
    obtain ⟨hta, hab, hbs⟩ := hmem (a, b) (List.mem_cons_self _ _)
    have ih := sweep_ded vs hvs s1 ms b hbs
      (fun m hm => ⟨hpw.1 m hm, (hmem m (List.mem_cons_of_mem _ hm)).2⟩) hpw.2
    have h1 := measInter_le vs hvs hab
    have h2 := measInter_le vs hvs hta
    dsimp only at hta hab hbs h1 h2
    have h3 : measInter vs t s1 = measInter vs t a + measInter vs a b + measInter vs b s1 := by
      rw [measInter_split vs hvs hta (le_trans hab hbs), measInter_split vs hvs hab hbs]
      ring
    simp only [List.map_cons, List.sum_cons]
    omega

theorem minutos_entre_lt_1440 (x y : Tod) : minutos_entre (some x) (some y) < 1440 := by
  have hx := x.isLt
  have hy := y.isLt
  simp only [minutos_entre]
  split <;> omega

theorem toShiftDt_emod (c : Bool) (ent t : Tod) :
    toShiftDt c ent t % 1440 = (t.val : Int) := by
  have := t.isLt
  simp only [toShiftDt]
  split <;> omega

/-- The engine's per-interval overlap against the recorded windows is the
measure of the positioned windows inside the interval's placement. -/
theorem ventanaOverlaps_eq_measInter (c : Bool) (ent : Tod) (m : Tod × Tod) :
    ∀ vs : List (Tod × Tod),
      ventanaOverlaps c ent vs m =
        measInter (vs.map (ivPos c ent)) (ivPos c ent m).1 (ivPos c ent m).2
  | [] => rfl
  | w :: vs => by
    have ih := ventanaOverlaps_eq_measInter c ent m vs
    have hw : ivOverlap c ent m w =
        interLen (ivPos c ent m).1 (ivPos c ent m).2 (ivPos c ent w) := by
      simp only [ivOverlap, interLen]
      omega
    simp only [ventanaOverlaps, measInter, List.map_cons, List.sum_cons] at ih ⊢
    rw [hw, ih]

/-- The amended no-labor deduction, re-read on the positioned merged
intervals. -/
theorem nolabDedSpec_eq_sweep (c : Bool) (ent : Tod) (vs : List (Tod × Tod)) :
    ∀ ms : List (Tod × Tod),
      nolabDedSpec c ent vs ms =
        ((ms.map (ivPos c ent)).map fun m =>
          max 0 ((m.2 - m.1) - measInter (vs.map (ivPos c ent)) m.1 m.2)).sum
  | [] => rfl
  | m :: ms => by
    have ih := nolabDedSpec_eq_sweep c ent vs ms
    have h1 := minutos_entre_eq_ivPos_len c ent m.1 m.2
    have h2 := ventanaOverlaps_eq_measInter c ent m vs
    simp only [nolabDedSpec, List.map_cons, List.sum_cons, Prod.mk.eta] at ih h1 ⊢
    rw [h1, h2, ih]

/-- Placement of a segment whose intended end sits a known distance `L`
ahead of its start on the shift timeline. -/
theorem ivPos_snd_eq (c : Bool) (ent : Tod) (x w : Tod) {L : Int}
    (h0 : 0 ≤ L) (h1 : L < 1440)
    (hcong : (toShiftDt c ent w - toShiftDt c ent x - L) % 1440 = 0) :
    ivPos c ent (x, w) = (toShiftDt c ent x, toShiftDt c ent x + L) := by
  simp only [ivPos, Prod.mk.injEq]
  refine ⟨trivial, ?_⟩
  omega

/-- Between two positions that sit in order inside the shift window,
`minutos_entre` is exactly the position difference. -/
theorem minutos_entre_between (c : Bool) (ent sal : Tod)
    (hb : toShiftDt c ent sal < (ent.val : Int) + 1440) {x y : Tod}
    (hx : (ent.val : Int) ≤ toShiftDt c ent x)
    (hxy : toShiftDt c ent x ≤ toShiftDt c ent y)
    (hy : toShiftDt c ent y ≤ toShiftDt c ent sal) :
    minutos_entre (some x) (some y) = toShiftDt c ent y - toShiftDt c ent x := by
  have h := minutos_entre_eq_ivPos_len c ent x y
  simp only [ivPos] at h
  omega

instance (c : Bool) (ent : Tod) : IsTotal (Tod × Tod) (offsetLE c ent) where
  total a b := Int.le_total _ _

instance (c : Bool) (ent : Tod) : IsTrans (Tod × Tod) (offsetLE c ent) where
  trans _ _ _ hab hbc := Int.le_trans hab hbc

/-- Extending a merged interval to a later end inside the shift window
keeps its start position and takes exactly the later end's position. -/
theorem ivPos_extend (c : Bool) (ent sal : Tod)
    (hb : toShiftDt c ent sal < (ent.val : Int) + 1440) {cur y : Tod × Tod}
    (hcur : GoodIv c ent sal cur) (hy : GoodIv c ent sal y)
    (hlt : (ivPos c ent cur).2 < (ivPos c ent y).2) :
    ivPos c ent (cur.1, y.2) = ((ivPos c ent cur).1, (ivPos c ent y).2) := by
  simp only [GoodIv, ivPos] at hcur hy
  simp only [ivPos, Prod.mk.injEq] at hlt ⊢
  refine ⟨trivial, ?_⟩
  omega

/-- The merge invariant: starting from a well-placed running interval and a
start-sorted list of well-placed intervals, every merged output interval is
well-placed, consecutive outputs are separated (each ends no later than the
next starts), and no output starts before the running interval did. -/
theorem mergeSpecGo_invariant (c : Bool) (ent sal : Tod)
    (hb : toShiftDt c ent sal < (ent.val : Int) + 1440) :
    ∀ (l : List (Tod × Tod)) (cur : Tod × Tod), GoodIv c ent sal cur →
      (∀ iv ∈ l, GoodIv c ent sal iv) →
      (∀ iv ∈ l, (ivPos c ent cur).1 ≤ (ivPos c ent iv).1) →
      l.Pairwise (fun a b => (ivPos c ent a).1 ≤ (ivPos c ent b).1) →
      (∀ m ∈ (mergeSpecGo c ent cur l).1, GoodIv c ent sal m) ∧
      (mergeSpecGo c ent cur l).1.Pairwise
        (fun a b => (ivPos c ent a).2 ≤ (ivPos c ent b).1) ∧
      ∀ m ∈ (mergeSpecGo c ent cur l).1, (ivPos c ent cur).1 ≤ (ivPos c ent m).1
  | [], cur, hcur, _, _, _ => by
    refine ⟨?_, ?_, ?_⟩
    · intro m hm
      simp only [mergeSpecGo, List.mem_singleton] at hm
      rw [hm]
      exact hcur
    · simp [mergeSpecGo]
    · intro m hm
      simp only [mergeSpecGo, List.mem_singleton] at hm
      rw [hm]
  | y :: ys, cur, hcur, hgood, hstart, hpw => by
    rw [List.pairwise_cons] at hpw
    have hycur : (ivPos c ent cur).1 ≤ (ivPos c ent y).1 :=
      hstart y (List.mem_cons_self _ _)
    have hygood : GoodIv c ent sal y := hgood y (List.mem_cons_self _ _)
    by_cases hcond : 0 < ivOverlap c ent cur y ∨ cur.2 = y.1
    · -- merge: the running interval absorbs `y`
      have hext : GoodIv c ent sal
            (if (ivPos c ent cur).2 < (ivPos c ent y).2 then (cur.1, y.2) else cur) ∧
          (ivPos c ent (if (ivPos c ent cur).2 < (ivPos c ent y).2 then (cur.1, y.2)
            else cur)).1 = (ivPos c ent cur).1 := by
        by_cases hlt : (ivPos c ent cur).2 < (ivPos c ent y).2
        · rw [if_pos hlt]
          have he := ivPos_extend c ent sal hb hcur hygood hlt
          constructor
          · simp only [GoodIv, he]
            exact ⟨hcur.1, lt_of_le_of_lt (le_of_lt hcur.2.1) hlt, hygood.2.2⟩
          · rw [he]
        · rw [if_neg hlt]
          exact ⟨hcur, rfl⟩
      have ih := mergeSpecGo_invariant c ent sal hb ys
        (if (ivPos c ent cur).2 < (ivPos c ent y).2 then (cur.1, y.2) else cur)
        hext.1 (fun iv hiv => hgood iv (List.mem_cons_of_mem _ hiv))
        (fun iv hiv => hext.2 ▸ hstart iv (List.mem_cons_of_mem _ hiv)) hpw.2
      simp only [mergeSpecGo, if_pos hcond]
      exact ⟨ih.1, ih.2.1, fun m hm => hext.2 ▸ ih.2.2 m hm⟩
    · -- keep separate: `cur` is closed off before `y`
      have hsep : (ivPos c ent cur).2 ≤ (ivPos c ent y).1 := by
        have hov : ¬ 0 < ivOverlap c ent cur y := fun h => hcond (Or.inl h)
        simp only [ivOverlap] at hov
        have hc2 := hcur.2.1
        have hy2 := hygood.2.1
        omega
      have ih := mergeSpecGo_invariant c ent sal hb ys y hygood
        (fun iv hiv => hgood iv (List.mem_cons_of_mem _ hiv)) hpw.1 hpw.2
      simp only [mergeSpecGo, if_neg hcond]
      refine ⟨?_, ?_, ?_⟩
      · intro m hm
        rcases List.mem_cons.mp hm with hm | hm
        · rw [hm]; exact hcur
        · exact ih.1 m hm
      · rw [List.pairwise_cons]
        exact ⟨fun m hm => le_trans hsep (ih.2.2 m hm), ih.2.1⟩
      · intro m hm
        rcases List.mem_cons.mp hm with hm | hm
        · rw [hm]
        · exact le_trans hycur (ih.2.2 m hm)

/-- The recorded punches happen in shift order: each break lies between
Entry and Exit on the shift timeline, runs forward, and the meal (up to its
effective end) precedes the dinner. -/
def eventos_ordenados (ent sal : Tod) (sc rc sd rd : Option Tod) : Bool :=
  (match sc with
   | none => true
   | some a =>
     decide ((ent.val : Int) ≤ toShiftDt (decide (sal.val < ent.val)) ent a ∧
       toShiftDt (decide (sal.val < ent.val)) ent a ≤
         toShiftDt (decide (sal.val < ent.val)) ent (rc.getD sal) ∧
       toShiftDt (decide (sal.val < ent.val)) ent (rc.getD sal) ≤
         toShiftDt (decide (sal.val < ent.val)) ent sal)) &&
  (match sd with
   | none => true
   | some b =>
     decide ((ent.val : Int) ≤ toShiftDt (decide (sal.val < ent.val)) ent b ∧
       toShiftDt (decide (sal.val < ent.val)) ent b ≤
         toShiftDt (decide (sal.val < ent.val)) ent (rd.getD sal) ∧
       toShiftDt (decide (sal.val < ent.val)) ent (rd.getD sal) ≤
         toShiftDt (decide (sal.val < ent.val)) ent sal)) &&
  (match sc, sd with
   | some _, some b =>
     decide (toShiftDt (decide (sal.val < ent.val)) ent (rc.getD sal) ≤
       toShiftDt (decide (sal.val < ent.val)) ent b)
   | _, _ => true)

/-- Placement of the recorded meal-deduction window: it starts at MealOut's
position and its length is exactly the meal deduction, which keeps it
inside `[MealOut, effective meal end]`. -/
theorem meal_window_facts (cfg : AppConfig) (ent sal a : Tod) (rc : Option Tod)
    (h1 : (ent.val : Int) ≤ toShiftDt (decide (sal.val < ent.val)) ent a)
    (h2 : toShiftDt (decide (sal.val < ent.val)) ent a ≤
      toShiftDt (decide (sal.val < ent.val)) ent (rc.getD sal))
    (h3 : toShiftDt (decide (sal.val < ent.val)) ent (rc.getD sal) ≤
      toShiftDt (decide (sal.val < ent.val)) ent sal) :
    ∃ cf : Tod, (comida_calc cfg sal (some a) rc).2 = some cf ∧
      ivPos (decide (sal.val < ent.val)) ent (a, cf) =
        (toShiftDt (decide (sal.val < ent.val)) ent a,
         toShiftDt (decide (sal.val < ent.val)) ent a +
           (comida_calc cfg sal (some a) rc).1) ∧
      0 ≤ (comida_calc cfg sal (some a) rc).1 ∧
      toShiftDt (decide (sal.val < ent.val)) ent a +
          (comida_calc cfg sal (some a) rc).1 ≤
        toShiftDt (decide (sal.val < ent.val)) ent (rc.getD sal) := by
  have hb := toShiftDt_sal_lt ent sal
  have hdur := minutos_entre_between (decide (sal.val < ent.val)) ent sal hb h1 h2 h3
  have hnn := minutos_entre_nonneg (some a) (some (rc.getD sal))
  have hlt := minutos_entre_lt_1440 a (rc.getD sal)
  by_cases hum : minutos_entre (some a) (some (rc.getD sal)) ≤
      (cfg.umbral_comida_media_hora_min : Int)
  · have hc : comida_calc cfg sal (some a) rc =
        (min (minutos_entre (some a) (some (rc.getD sal)))
          (cfg.tope_descuento_comida_min : Int),
         some (ofMinInt ((a.val : Int) +
           min (minutos_entre (some a) (some (rc.getD sal)))
             (cfg.tope_descuento_comida_min : Int)))) := by
      simp only [comida_calc, add_minutes]
      rw [if_pos hum]
    rw [hc]
    dsimp only
    refine ⟨_, rfl, ?_, ?_, ?_⟩
    · refine ivPos_snd_eq _ ent a _ ?_ ?_ ?_
      · omega
      · omega
      · have hm1 := toShiftDt_emod (decide (sal.val < ent.val)) ent
          (ofMinInt ((a.val : Int) + min (minutos_entre (some a) (some (rc.getD sal)))
            (cfg.tope_descuento_comida_min : Int)))
        have hm2 := toShiftDt_emod (decide (sal.val < ent.val)) ent a
        have hv := ofMinInt_val ((a.val : Int) +
          min (minutos_entre (some a) (some (rc.getD sal)))
            (cfg.tope_descuento_comida_min : Int))
        have ha := a.isLt
        omega
    · omega
    · omega
  · have hc : comida_calc cfg sal (some a) rc =
        (minutos_entre (some a) (some (rc.getD sal)), some (rc.getD sal)) := by
      simp only [comida_calc]
      rw [if_neg hum]
    rw [hc]
    dsimp only
    refine ⟨_, rfl, ?_, hnn, ?_⟩
    · refine ivPos_snd_eq _ ent a _ hnn hlt ?_
      omega
    · omega

/-- Placement of the recorded dinner-deduction window: it starts at
DinnerOut's position and its length is exactly the dinner deduction. -/
theorem dinner_window_facts (ent sal b : Tod) (rd : Option Tod)
    (h1 : (ent.val : Int) ≤ toShiftDt (decide (sal.val < ent.val)) ent b)
    (h2 : toShiftDt (decide (sal.val < ent.val)) ent b ≤
      toShiftDt (decide (sal.val < ent.val)) ent (rd.getD sal))
    (h3 : toShiftDt (decide (sal.val < ent.val)) ent (rd.getD sal) ≤
      toShiftDt (decide (sal.val < ent.val)) ent sal) :
    ivPos (decide (sal.val < ent.val)) ent (b, rd.getD sal) =
      (toShiftDt (decide (sal.val < ent.val)) ent b,
       toShiftDt (decide (sal.val < ent.val)) ent b + cena_calc sal (some b) rd) ∧
    0 ≤ cena_calc sal (some b) rd ∧
    toShiftDt (decide (sal.val < ent.val)) ent b + cena_calc sal (some b) rd ≤
      toShiftDt (decide (sal.val < ent.val)) ent (rd.getD sal) := by
  have hb := toShiftDt_sal_lt ent sal
  have hcena : cena_calc sal (some b) rd = minutos_entre (some b) (some (rd.getD sal)) := by
    cases rd <;> rfl
  have hdur := minutos_entre_between (decide (sal.val < ent.val)) ent sal hb h1 h2 h3
  have hnn := minutos_entre_nonneg (some b) (some (rd.getD sal))
  have hlt := minutos_entre_lt_1440 b (rd.getD sal)
  rw [hcena]
  refine ⟨?_, hnn, ?_⟩
  · refine ivPos_snd_eq _ ent b _ hnn hlt ?_
    omega
  · omega

/-- The recorded deduction-window list, positioned on the shift timeline:
under ordered punches it is a `vsOk` shape of segments inside the shift
window whose total length is exactly the meal plus dinner deduction. -/
theorem ventanas_facts (cfg : AppConfig) (ent sal : Tod) (sc rc sd rd : Option Tod)
    (h : eventos_ordenados ent sal sc rc sd rd = true) :
    vsOk ((ventanas_descuento sal sc (comida_calc cfg sal sc rc).2 sd rd).map
      (ivPos (decide (sal.val < ent.val)) ent)) ∧
    (∀ w ∈ (ventanas_descuento sal sc (comida_calc cfg sal sc rc).2 sd rd).map
      (ivPos (decide (sal.val < ent.val)) ent),
      (ent.val : Int) ≤ w.1 ∧ w.2 ≤ toShiftDt (decide (sal.val < ent.val)) ent sal) ∧
    (((ventanas_descuento sal sc (comida_calc cfg sal sc rc).2 sd rd).map
      (ivPos (decide (sal.val < ent.val)) ent)).map fun w => w.2 - w.1).sum =
      (comida_calc cfg sal sc rc).1 + cena_calc sal sd rd := by
  rcases sc with _ | a
  · rcases sd with _ | b
    · simp [ventanas_descuento, comida_calc, cena_calc, vsOk]
    · simp only [eventos_ordenados, Bool.and_eq_true, decide_eq_true_eq] at h
      obtain ⟨⟨-, hd1, hd2, hd3⟩, -⟩ := h
      obtain ⟨hpos, hnn, hup⟩ := dinner_window_facts ent sal b rd hd1 hd2 hd3
      simp only [ventanas_descuento, comida_calc, List.nil_append, List.map_cons,
        List.map_nil, hpos, List.sum_cons, List.sum_nil, List.mem_singleton]
      refine ⟨by simp only [vsOk]; omega, ?_, by omega⟩
      intro w hw
      rw [hw]
      exact ⟨hd1, by omega⟩
  · rcases sd with _ | b
    · simp only [eventos_ordenados, Bool.and_eq_true, decide_eq_true_eq] at h
      obtain ⟨⟨⟨hm1, hm2, hm3⟩, -⟩, -⟩ := h
      obtain ⟨cf, hcf, hpos, hnn, hup⟩ := meal_window_facts cfg ent sal a rc hm1 hm2 hm3
      rw [hcf]
      simp only [ventanas_descuento, cena_calc, List.singleton_append, List.map_cons,
        List.map_nil, hpos, List.sum_cons, List.sum_nil, List.mem_singleton]
      refine ⟨by simp only [vsOk]; omega, ?_, by omega⟩
      intro w hw
      rw [hw]
      exact ⟨hm1, by omega⟩
    · simp only [eventos_ordenados, Bool.and_eq_true, decide_eq_true_eq] at h
      obtain ⟨⟨⟨hm1, hm2, hm3⟩, hd1, hd2, hd3⟩, hx⟩ := h
      obtain ⟨cf, hcf, hposm, hnnm, hupm⟩ := meal_window_facts cfg ent sal a rc hm1 hm2 hm3
      obtain ⟨hposd, hnnd, hupd⟩ := dinner_window_facts ent sal b rd hd1 hd2 hd3
      rw [hcf]
      simp only [ventanas_descuento, List.singleton_append, List.map_cons,
        List.map_nil, hposm, hposd, List.sum_cons, List.sum_nil, List.mem_cons,
        List.mem_singleton, List.not_mem_nil, or_false]
      refine ⟨by simp only [vsOk]; omega, ?_, by omega⟩
      intro w hw
      rcases hw with hw | hw <;> rw [hw]
      · exact ⟨hm1, by omega⟩
      · exact ⟨hd1, by omega⟩

/-- The no-labor deduction over the merged intervals is bounded by the
shift length minus the in-shift part of the recorded deduction windows. -/
theorem merged_ded_le (ent sal : Tod) (vs : List (Tod × Tod))
    (hvs : vsOk (vs.map (ivPos (decide (sal.val < ent.val)) ent)))
    (l : List (Tod × Tod))
    (hgoods : ∀ iv ∈ l, GoodIv (decide (sal.val < ent.val)) ent sal iv)
    (hsorted : l.Pairwise (fun a b => (ivPos (decide (sal.val < ent.val)) ent a).1 ≤
      (ivPos (decide (sal.val < ent.val)) ent b).1)) :
    nolabDedSpec (decide (sal.val < ent.val)) ent vs
        (mergeSpec (decide (sal.val < ent.val)) ent l).1 ≤
      (toShiftDt (decide (sal.val < ent.val)) ent sal - (ent.val : Int)) -
        measInter (vs.map (ivPos (decide (sal.val < ent.val)) ent)) (ent.val : Int)
          (toShiftDt (decide (sal.val < ent.val)) ent sal) := by
  have hge := toShiftDt_sal_ge ent sal
  have hb := toShiftDt_sal_lt ent sal
  cases l with
  | nil =>
    have hmi := measInter_le (vs.map (ivPos (decide (sal.val < ent.val)) ent)) hvs hge
    simp only [mergeSpec, nolabDedSpec, List.map_nil, List.sum_nil]
    omega
  | cons x xs =>
    rw [List.pairwise_cons] at hsorted
    have inv := mergeSpecGo_invariant (decide (sal.val < ent.val)) ent sal hb xs x
      (hgoods x (List.mem_cons_self _ _))
      (fun iv hiv => hgoods iv (List.mem_cons_of_mem _ hiv)) hsorted.1 hsorted.2
    have hmemI : ∀ m ∈ (mergeSpecGo (decide (sal.val < ent.val)) ent x xs).1.map
        (ivPos (decide (sal.val < ent.val)) ent),
        (ent.val : Int) ≤ m.1 ∧ m.1 ≤ m.2 ∧
          m.2 ≤ toShiftDt (decide (sal.val < ent.val)) ent sal := by
      intro m hm
      obtain ⟨iv, hiv, hmv⟩ := List.mem_map.mp hm
      obtain ⟨g1, g2, g3⟩ := inv.1 iv hiv
      rw [← hmv]
      exact ⟨g1, le_of_lt g2, g3⟩
    have hpwI : ((mergeSpecGo (decide (sal.val < ent.val)) ent x xs).1.map
        (ivPos (decide (sal.val < ent.val)) ent)).Pairwise (fun a b => a.2 ≤ b.1) :=
      List.Pairwise.map _ (fun _ _ hab => hab) inv.2.1
    have hsw := sweep_ded (vs.map (ivPos (decide (sal.val < ent.val)) ent)) hvs
      (toShiftDt (decide (sal.val < ent.val)) ent sal)
      ((mergeSpecGo (decide (sal.val < ent.val)) ent x xs).1.map
        (ivPos (decide (sal.val < ent.val)) ent)) (ent.val : Int) hge hmemI hpwI
    rw [mergeSpec, nolabDedSpec_eq_sweep]
    exact hsw

/-- Claim C5 (amended): for every events map with Entry and Exit present
whose break punches are in shift order — each break between Entry and Exit
on the shift timeline, running forward, the meal's effective end before the
dinner — and every configuration and exception list, the meal, dinner and
no-labor deductions together never exceed the Entry-to-Exit span.  (Without
the ordering hypothesis the claim fails: a MealOut positioned after Exit
is measured with a midnight wrap and can be deducted in full.) -/
theorem claim5_amended (ev : Eventos) (cfg : AppConfig) (exc : List NoLabInterval)
    (ent sal : Tod) (he : ev.entrada = some ent) (hs : ev.salida = some sal)
    (hord : eventos_ordenados ent sal ev.salida_comer ev.regreso_comer
      ev.salida_cenar ev.regreso_cenar = true) :
    (calcular_trabajado ev cfg exc).comida_ded + (calcular_trabajado ev cfg exc).cena_ded +
        (calcular_trabajado ev cfg exc).extra_ded ≤
      minutos_entre (some ent) (some sal) := by
  obtain ⟨e1, e2, e3, e4, e5, e6, e7⟩ := ev
  dsimp only at he hs hord
  subst he
  subst hs
  have hge := toShiftDt_sal_ge ent sal
  have htotal : minutos_entre (some ent) (some sal) =
      toShiftDt (decide (sal.val < ent.val)) ent sal - (ent.val : Int) :=
    minutos_entre_ent_eq (decide (sal.val < ent.val)) ent sal hge
  have hcollect := collect_eq_spec ent sal exc
  have hsort := sort_eq_offset ent sal
    (clipAllSpec (decide (sal.val < ent.val)) ent sal (nolabEfectivos sal exc)).1
    (clipAllSpec_good ent sal (nolabEfectivos sal exc))
  have hded := deduct_merged_eq_spec (decide (sal.val < ent.val)) ent
    (ventanas_descuento sal e2 (comida_calc cfg sal e2 e3).2 e4 e5)
    ((mergeSpec (decide (sal.val < ent.val)) ent
      ((clipAllSpec (decide (sal.val < ent.val)) ent sal
        (nolabEfectivos sal exc)).1.insertionSort
          (offsetLE (decide (sal.val < ent.val)) ent))).1)
  have hmerge := merge_full_eq_spec (decide (sal.val < ent.val)) ent
    ((clipAllSpec (decide (sal.val < ent.val)) ent sal
      (nolabEfectivos sal exc)).1.insertionSort
        (offsetLE (decide (sal.val < ent.val)) ent))
  simp only [calcular_trabajado, hcollect, hsort]
  rw [hmerge.1, hded, htotal]
  dsimp only
  have vf := ventanas_facts cfg ent sal e2 e3 e4 e5 hord
  have hgoods : ∀ iv ∈ (clipAllSpec (decide (sal.val < ent.val)) ent sal
      (nolabEfectivos sal exc)).1.insertionSort
        (offsetLE (decide (sal.val < ent.val)) ent),
      GoodIv (decide (sal.val < ent.val)) ent sal iv := fun iv hiv =>
    clipAllSpec_good ent sal (nolabEfectivos sal exc) iv
      ((List.perm_insertionSort _ _).mem_iff.mp hiv)
  have hsorted : ((clipAllSpec (decide (sal.val < ent.val)) ent sal
      (nolabEfectivos sal exc)).1.insertionSort
        (offsetLE (decide (sal.val < ent.val)) ent)).Pairwise
      (fun a b => (ivPos (decide (sal.val < ent.val)) ent a).1 ≤
        (ivPos (decide (sal.val < ent.val)) ent b).1) := by
    refine List.Pairwise.imp ?_ (List.sorted_insertionSort _ _)
    intro a b hab
    simp only [offsetLE, offsetFromEntry] at hab
    omega
  have hml := merged_ded_le ent sal
    (ventanas_descuento sal e2 (comida_calc cfg sal e2 e3).2 e4 e5) vf.1 _ hgoods hsorted
  have hfull := measInter_full
    ((ventanas_descuento sal e2 (comida_calc cfg sal e2 e3).2 e4 e5).map
      (ivPos (decide (sal.val < ent.val)) ent)) vf.1 vf.2.1
  have hsum := vf.2.2
  omega

/-- The C5 counterexample events: Entry 09:00, Exit 10:00, and a MealOut at
12:00 — after the Exit — with no MealIn. -/
def evC5 : Eventos :=
  { entrada := some (hhmm 9 0), salida_comer := some (hhmm 12 0), regreso_comer := none
    salida_cenar := none, regreso_cenar := none
    salida := some (hhmm 10 0), extra_registros := 0 }

/-- Claim C5 counterexample: with MealOut 12:00 recorded after the Exit
10:00 and no MealIn, the meal runs 12:00 → 10:00 across midnight (1320
minutes, over the 60-minute ceiling, so deducted in full), while the whole
shift spans only 60 minutes: the summed deductions exceed the span. -/
theorem claim5_counterexample :
    (calcular_trabajado evC5 cfg0 []).comida_ded + (calcular_trabajado evC5 cfg0 []).cena_ded +
        (calcular_trabajado evC5 cfg0 []).extra_ded = 1320 ∧
    minutos_entre (some (hhmm 9 0)) (some (hhmm 10 0)) = 60 ∧
    ¬ ((1320 : Int) ≤ 60) := by
  refine ⟨by decide, by decide, by decide⟩

/-- Claim C5 witness: the amended bound at the concrete ordered punch list
09:00, 13:00, 13:30, 18:00 with no exceptions. -/
theorem claim5_witness :
    (calcular_trabajado evA cfg0 []).comida_ded + (calcular_trabajado evA cfg0 []).cena_ded +
        (calcular_trabajado evA cfg0 []).extra_ded ≤
      minutos_entre (some (hhmm 9 0)) (some (hhmm 18 0)) :=
  claim5_amended evA cfg0 [] (hhmm 9 0) (hhmm 18 0) (by decide) (by decide) (by decide)
